import Mathlib

/-!
Verification of the Latin-square Grover oracle and driver of this repository.

The repository's `oracle/`, `grover/` and `utils/` Python modules are
represented here by a shallow embedding: a quantum register restricted to
classical basis states is a natural number (bit `q` of the number is the value
of qubit `q`) together with the sign of the amplitude of that basis state, and
a circuit is a list of classical reversible gates (X / multi-controlled X,
possibly with negated controls) plus the multi-controlled phase flip used by
the oracle and the net effect of the ripple-carry comparator.  All gates used
by the oracle are classical, so this captures the oracle's action on every
basis state exactly.
-/

namespace LatinGrover

/-- Bit `q` of the register state `s` (the register is a flat array of qubits,
encoded as the binary digits of a natural number). -/
def getBit (s q : Nat) : Bool := Nat.testBit s q

/-- Flip bit `t` of the register state. -/
def flipBit (s t : Nat) : Nat := s ^^^ 2 ^ t

/-- Flip bit `t` of the register state when `b` is true. -/
def flipWhen (b : Bool) (t s : Nat) : Nat := if b then flipBit s t else s

/-- The unsigned integer value stored LSB-first in the `w` qubits
`f 0, f 1, …, f (w-1)`. -/
def valOf (s : Nat) (f : Nat → Nat) : Nat → Nat
  | 0 => 0
  | w + 1 => valOf s f w + 2 ^ w * (cond (getBit s (f w)) 1 0)

theorem getBit_flipBit (s t q : Nat) :
    getBit (flipBit s t) q = if q = t then !(getBit s q) else getBit s q := by
  unfold getBit flipBit
  rw [Nat.testBit_xor, Nat.testBit_two_pow]
  by_cases h : q = t
  · subst h; simp
  · have ht : ¬ t = q := fun h' => h h'.symm
    simp [h, ht]

theorem getBit_flipWhen (b : Bool) (t s q : Nat) :
    getBit (flipWhen b t s) q =
      if q = t then Bool.xor (getBit s q) b else getBit s q := by
  cases b with
  | false => simp [flipWhen]
  | true => simp [flipWhen, getBit_flipBit, Bool.xor_true]

theorem flipWhen_flipWhen (b : Bool) (t s : Nat) :
    flipWhen b t (flipWhen b t s) = s := by
  cases b with
  | false => simp [flipWhen]
  | true => simp [flipWhen, flipBit, Nat.xor_cancel_right]

theorem valOf_congr {s s' : Nat} {f : Nat → Nat} {w : Nat}
    (h : ∀ i < w, getBit s (f i) = getBit s' (f i)) :
    valOf s f w = valOf s' f w := by
  induction w with
  | zero => rfl
  | succ w ih =>
      unfold valOf
      rw [ih fun i hi => h i (Nat.lt_succ_of_lt hi), h w (Nat.lt_succ_self w)]

theorem valOf_lt (s : Nat) (f : Nat → Nat) (w : Nat) : valOf s f w < 2 ^ w := by
  induction w with
  | zero => simp [valOf]
  | succ w ih =>
      unfold valOf
      have : (cond (getBit s (f w)) 1 0) ≤ 1 := by cases getBit s (f w) <;> simp
      have h2 : 2 ^ (w + 1) = 2 ^ w + 2 ^ w * 1 := by ring
      calc valOf s f w + 2 ^ w * (cond (getBit s (f w)) 1 0)
          ≤ valOf s f w + 2 ^ w * 1 := by
            exact Nat.add_le_add_left (Nat.mul_le_mul_left _ this) _
        _ < 2 ^ w + 2 ^ w * 1 := by exact Nat.add_lt_add_right (by simpa using ih) _
        _ = 2 ^ (w + 1) := h2.symm

theorem valOf_eq_of_testBit {c : Nat} {s : Nat} {f : Nat → Nat} {w : Nat}
    (hc : c < 2 ^ w) (h : ∀ b < w, getBit s (f b) = c.testBit b) :
    valOf s f w = c := by
  induction w generalizing c with
  | zero => simpa [valOf] using (Nat.lt_one_iff.mp hc).symm
  | succ w ih =>
      unfold valOf
      have hmod : valOf s f w = c % 2 ^ w := by
        refine ih (Nat.mod_lt _ (Nat.pos_pow_of_pos _ (by norm_num))) ?_
        intro b hb
        rw [h b (Nat.lt_succ_of_lt hb), Nat.testBit_mod_two_pow]
        simp [hb]
      have hdiv : c / 2 ^ w < 2 := by
        rw [Nat.div_lt_iff_lt_mul (Nat.two_pow_pos w)]
        calc c < 2 ^ (w + 1) := hc
          _ = 2 * 2 ^ w := by ring
      have h01 : c / 2 ^ w = 0 ∨ c / 2 ^ w = 1 := by
        revert hdiv; generalize c / 2 ^ w = d; omega
      have htop : (cond (getBit s (f w)) 1 0 : Nat) = c / 2 ^ w := by
        rw [h w (Nat.lt_succ_self w), Nat.testBit_to_div_mod]
        rcases h01 with h0 | h0 <;> rw [h0] <;> simp
      rw [hmod, htop, Nat.mod_add_div]

theorem valOf_inj {s s' : Nat} {f g : Nat → Nat} {w : Nat} :
    valOf s f w = valOf s' g w ↔ ∀ i < w, getBit s (f i) = getBit s' (g i) := by
  induction w with
  | zero => simp [valOf]
  | succ w ih =>
      have hf := valOf_lt s f w
      have hg := valOf_lt s' g w
      unfold valOf
      constructor
      · intro h
        have hx : getBit s (f w) = getBit s' (g w) ∧ valOf s f w = valOf s' g w := by
          cases hb : getBit s (f w) <;> cases hb' : getBit s' (g w) <;>
            rw [hb, hb'] at h <;>
            simp only [Bool.cond_false, Bool.cond_true, Nat.mul_zero, Nat.mul_one,
              Nat.add_zero] at h <;>
            first
              | exact ⟨rfl, by omega⟩
              | exact absurd h (by omega)
        intro i hi
        rcases Nat.lt_succ_iff_lt_or_eq.mp hi with hi' | hi'
        · exact (ih.mp hx.2) i hi'
        · subst hi'; exact hx.1
      · intro h
        rw [ih.mpr fun i hi => h i (Nat.lt_succ_of_lt hi), h w (Nat.lt_succ_self w)]

/-- The classical reversible gates used by the oracle circuits, plus the
multi-controlled phase flip used for the mark step.

`cmpGE w v c t` is the net effect of `comparator_less` (`utils/helpers.py`).
Modelled from the spec: the source of `comparator_less` is not under `src/`;
per the spec it builds a CDKM ripple-carry addition of the `w`-qubit operand at
positions `v` with the constant held in the ancillas at positions `c`, captures
the carry-out bit into `t`, and exactly reverses the carry chain, so its net
effect is to toggle `t` exactly when the sum reaches `2 ^ w`, leaving every
other bit unchanged. -/
inductive Gate where
  | mcx (cs : List Nat) (t : Nat)
  | mcx0 (cs : List Nat) (t : Nat)
  | cmpGE (w : Nat) (v c : Nat → Nat) (t : Nat)
  | mcz0 (cs : List Nat)

/-- The condition controlling a gate, read from the register bits. -/
def Gate.gcond : Gate → Nat → Bool
  | .mcx cs _, s => cs.all fun q => getBit s q
  | .mcx0 cs _, s => cs.all fun q => !(getBit s q)
  | .cmpGE w v c _, s => decide (2 ^ w ≤ valOf s v w + valOf s c w)
  | .mcz0 cs, s => cs.all fun q => !(getBit s q)

/-- The bit a gate toggles, if any. -/
def Gate.target : Gate → Option Nat
  | .mcx _ t => some t
  | .mcx0 _ t => some t
  | .cmpGE _ _ _ t => some t
  | .mcz0 _ => none

/-- The register bits a gate's condition reads. -/
def Gate.reads : Gate → List Nat
  | .mcx cs _ => cs
  | .mcx0 cs _ => cs
  | .cmpGE w v c _ => ((List.range w).map v) ++ ((List.range w).map c)
  | .mcz0 cs => cs

/-- The new register bits after applying a gate. -/
def Gate.bitsEffect (g : Gate) (s : Nat) : Nat :=
  match g.target with
  | some t => flipWhen (g.gcond s) t s
  | none => s

/-- Whether the gate flips the sign of the current basis state. -/
def Gate.signEffect (g : Gate) (s : Nat) : Bool :=
  match g with
  | .mcz0 _ => g.gcond s
  | _ => false

/-- A classical basis state of the flat qubit register together with the sign
of the amplitude of that basis state. -/
structure QState where
  bits : Nat
  sign : Bool
  deriving DecidableEq

/-- Apply one gate to a basis state. -/
def Gate.apply (g : Gate) (s : QState) : QState :=
  ⟨g.bitsEffect s.bits, Bool.xor s.sign (g.signEffect s.bits)⟩

/-- Run a circuit (a list of gates) on a basis state. -/
def run (C : List Gate) (s : QState) : QState :=
  C.foldl (fun s g => g.apply s) s

/-- Run a circuit on register bits, ignoring the sign. -/
def runBits (C : List Gate) (b : Nat) : Nat :=
  C.foldl (fun b g => g.bitsEffect b) b

theorem run_nil (s : QState) : run [] s = s := rfl

theorem run_cons (g : Gate) (C : List Gate) (s : QState) :
    run (g :: C) s = run C (g.apply s) := rfl

theorem run_append (C₁ C₂ : List Gate) (s : QState) :
    run (C₁ ++ C₂) s = run C₂ (run C₁ s) := by
  unfold run
  exact List.foldl_append _ _ _ _

theorem runBits_nil (b : Nat) : runBits [] b = b := rfl

theorem runBits_cons (g : Gate) (C : List Gate) (b : Nat) :
    runBits (g :: C) b = runBits C (g.bitsEffect b) := rfl

theorem runBits_append (C₁ C₂ : List Gate) (b : Nat) :
    runBits (C₁ ++ C₂) b = runBits C₂ (runBits C₁ b) := by
  unfold runBits
  exact List.foldl_append _ _ _ _

theorem run_bits_eq (C : List Gate) (s : QState) :
    (run C s).bits = runBits C s.bits := by
  induction C generalizing s with
  | nil => rfl
  | cons g C ih => rw [run_cons, runBits_cons, ih, Gate.apply]

/-- A gate that never flips the sign. -/
def Gate.phaseFree : Gate → Prop
  | .mcz0 _ => False
  | _ => True

theorem Gate.signEffect_of_phaseFree {g : Gate} (h : g.phaseFree) (b : Nat) :
    g.signEffect b = false := by
  cases g with
  | mcz0 cs => exact absurd h (by simp [Gate.phaseFree])
  | mcx cs t => rfl
  | mcx0 cs t => rfl
  | cmpGE w v c t => rfl

theorem run_sign_of_phaseFree {C : List Gate} (h : ∀ g ∈ C, g.phaseFree)
    (s : QState) : (run C s).sign = s.sign := by
  induction C generalizing s with
  | nil => rfl
  | cons g C ih =>
      rw [run_cons, ih fun g' hg' => h g' (List.mem_cons_of_mem _ hg')]
      show Bool.xor s.sign (g.signEffect s.bits) = s.sign
      rw [Gate.signEffect_of_phaseFree (h g (List.mem_cons_self _ _)), Bool.xor_false]

theorem list_all_congr {α : Type} {l : List α} {f g : α → Bool}
    (h : ∀ x ∈ l, f x = g x) : l.all f = l.all g := by
  induction l with
  | nil => rfl
  | cons a l ih =>
      simp only [List.all_cons, h a (List.mem_cons_self _ _),
        ih fun x hx => h x (List.mem_cons_of_mem _ hx)]

theorem Gate.gcond_congr {g : Gate} {b b' : Nat}
    (h : ∀ q ∈ g.reads, getBit b q = getBit b' q) : g.gcond b = g.gcond b' := by
  cases g with
  | mcx cs t => exact list_all_congr fun q hq => by rw [h q hq]
  | mcx0 cs t => exact list_all_congr fun q hq => by rw [h q hq]
  | mcz0 cs => exact list_all_congr fun q hq => by rw [h q hq]
  | cmpGE w v c t =>
      show decide _ = decide _
      have hv : valOf b v w = valOf b' v w := by
        refine valOf_congr fun i hi => h (v i) ?_
        simp [Gate.reads]
        exact Or.inl ⟨i, hi, rfl⟩
      have hc : valOf b c w = valOf b' c w := by
        refine valOf_congr fun i hi => h (c i) ?_
        simp [Gate.reads]
        exact Or.inr ⟨i, hi, rfl⟩
      rw [hv, hc]

/-- Pointwise description of a gate's action on the bits. -/
theorem getBit_bitsEffect (g : Gate) (b : Nat) (q : Nat) :
    getBit (g.bitsEffect b) q =
      if g.target = some q then Bool.xor (getBit b q) (g.gcond b)
      else getBit b q := by
  cases g with
  | mcz0 cs => simp [Gate.bitsEffect, Gate.target]
  | mcx cs t =>
      show getBit (flipWhen _ t b) q = _
      rw [getBit_flipWhen]
      by_cases h : q = t
      · subst h; simp [Gate.target]
      · have ht : ¬ t = q := fun h' => h h'.symm
        simp [Gate.target, h, ht]
  | mcx0 cs t =>
      show getBit (flipWhen _ t b) q = _
      rw [getBit_flipWhen]
      by_cases h : q = t
      · subst h; simp [Gate.target]
      · have ht : ¬ t = q := fun h' => h h'.symm
        simp [Gate.target, h, ht]
  | cmpGE w v c t =>
      show getBit (flipWhen _ t b) q = _
      rw [getBit_flipWhen]
      by_cases h : q = t
      · subst h; simp [Gate.target]
      · have ht : ¬ t = q := fun h' => h h'.symm
        simp [Gate.target, h, ht]

/-- A well-formed gate does not read its own target bit. -/
def Gate.Ok (g : Gate) : Prop := ∀ t, g.target = some t → t ∉ g.reads

theorem Gate.bitsEffect_bitsEffect {g : Gate} (hg : g.Ok) (b : Nat) :
    g.bitsEffect (g.bitsEffect b) = b := by
  have hcond : g.gcond (g.bitsEffect b) = g.gcond b := by
    refine Gate.gcond_congr fun q hq => ?_
    rw [getBit_bitsEffect]
    rcases ht : g.target with _ | t
    · simp
    · have hne : ¬ (g.target = some q) := by
        rw [ht]
        intro h
        have htq : t = q := by injection h
        exact (hg t ht) (htq ▸ hq)
      rw [ht] at hne
      simp [hne]
  apply Nat.eq_of_testBit_eq
  intro q
  show getBit (g.bitsEffect (g.bitsEffect b)) q = getBit b q
  rw [getBit_bitsEffect, hcond, getBit_bitsEffect]
  by_cases hq : g.target = some q
  · rw [if_pos hq, if_pos hq, Bool.xor_assoc, Bool.xor_self, Bool.xor_false]
  · rw [if_neg hq, if_neg hq]

/-- Every gate of the circuit is well formed and phase free. -/
def OkC (C : List Gate) : Prop := ∀ g ∈ C, g.Ok ∧ g.phaseFree

/-- The circuit neither writes nor reads bit `t`. -/
def AvoidsBit (C : List Gate) (t : Nat) : Prop :=
  ∀ g ∈ C, g.target ≠ some t ∧ t ∉ g.reads

theorem OkC_append {C₁ C₂ : List Gate} (h₁ : OkC C₁) (h₂ : OkC C₂) :
    OkC (C₁ ++ C₂) := by
  intro g hg
  rcases List.mem_append.mp hg with h | h
  · exact h₁ g h
  · exact h₂ g h

theorem OkC_reverse {C : List Gate} (h : OkC C) : OkC C.reverse := fun g hg =>
  h g (List.mem_reverse.mp hg)

theorem OkC_flatMap {α : Type} {l : List α} {f : α → List Gate}
    (h : ∀ x ∈ l, OkC (f x)) : OkC (l.flatMap f) := by
  intro g hg
  rcases List.mem_flatMap.mp hg with ⟨x, hx, hgx⟩
  exact h x hx g hgx

theorem AvoidsBit_append {C₁ C₂ : List Gate} {t : Nat}
    (h₁ : AvoidsBit C₁ t) (h₂ : AvoidsBit C₂ t) : AvoidsBit (C₁ ++ C₂) t := by
  intro g hg
  rcases List.mem_append.mp hg with h | h
  · exact h₁ g h
  · exact h₂ g h

theorem AvoidsBit_reverse {C : List Gate} {t : Nat} (h : AvoidsBit C t) :
    AvoidsBit C.reverse t := fun g hg => h g (List.mem_reverse.mp hg)

theorem AvoidsBit_flatMap {α : Type} {l : List α} {f : α → List Gate} {t : Nat}
    (h : ∀ x ∈ l, AvoidsBit (f x) t) : AvoidsBit (l.flatMap f) t := by
  intro g hg
  rcases List.mem_flatMap.mp hg with ⟨x, hx, hgx⟩
  exact h x hx g hgx

/-- Frame rule: a circuit leaves every bit it never targets unchanged. -/
theorem runBits_frame {C : List Gate} {q : Nat}
    (h : ∀ g ∈ C, g.target ≠ some q) (b : Nat) :
    getBit (runBits C b) q = getBit b q := by
  induction C generalizing b with
  | nil => rfl
  | cons g C ih =>
      rw [runBits_cons, ih fun g' hg' => h g' (List.mem_cons_of_mem _ hg')]
      rw [getBit_bitsEffect, if_neg (h g (List.mem_cons_self _ _))]

/-- Two register states that agree except at a bit the circuit never touches
keep agreeing everywhere else, and the untouched bit is preserved. -/
theorem runBits_agree_except {C : List Gate} {t : Nat} (h : AvoidsBit C t)
    {b b' : Nat} (hag : ∀ q, q ≠ t → getBit b q = getBit b' q) :
    ∀ q, q ≠ t → getBit (runBits C b) q = getBit (runBits C b') q := by
  induction C generalizing b b' with
  | nil => exact hag
  | cons g C ih =>
      rw [runBits_cons, runBits_cons]
      have hg := h g (List.mem_cons_self _ _)
      have hcond : g.gcond b = g.gcond b' :=
        Gate.gcond_congr fun q hq => hag q (fun h' => hg.2 (h' ▸ hq))
      refine ih (fun g' hg' => h g' (List.mem_cons_of_mem _ hg')) ?_
      intro q hq
      rw [getBit_bitsEffect, getBit_bitsEffect, hcond]
      by_cases hgt : g.target = some q
      · rw [if_pos hgt, if_pos hgt, hag q hq]
      · rw [if_neg hgt, if_neg hgt, hag q hq]

/-- Running a circuit and then its reverse restores the register bits. -/
theorem runBits_reverse_cancel {C : List Gate} (h : ∀ g ∈ C, g.Ok) (b : Nat) :
    runBits C.reverse (runBits C b) = b := by
  induction C generalizing b with
  | nil => rfl
  | cons g C ih =>
      rw [List.reverse_cons, runBits_cons, runBits_append,
        ih (fun g' hg' => h g' (List.mem_cons_of_mem _ hg')) (g.bitsEffect b)]
      show runBits [g] _ = b
      rw [runBits_cons, runBits_nil,
        Gate.bitsEffect_bitsEffect (h g (List.mem_cons_self _ _))]

/-- A circuit whose whole action is to toggle the single bit `t` when the
condition `eff`, evaluated on the entry state, holds. -/
def TogglesOnly (C : List Gate) (t : Nat) (eff : Nat → Bool) : Prop :=
  ∀ s : QState, run C s = ⟨flipWhen (eff s.bits) t s.bits, s.sign⟩

/-- The condition `eff` reads only register bits satisfying `P`. -/
def DependsOnlyOn (P : Nat → Prop) (eff : Nat → Bool) : Prop :=
  ∀ b b' : Nat, (∀ q, P q → getBit b q = getBit b' q) → eff b = eff b'

theorem TogglesOnly.congr {C : List Gate} {t : Nat} {eff eff' : Nat → Bool}
    (h : TogglesOnly C t eff) (he : ∀ b, eff b = eff' b) :
    TogglesOnly C t eff' := by
  intro s
  rw [h s, he]

theorem DependsOnlyOn.mono {P Q : Nat → Prop} {eff : Nat → Bool}
    (h : DependsOnlyOn P eff) (hpq : ∀ q, P q → Q q) : DependsOnlyOn Q eff :=
  fun b b' hb => h b b' fun q hq => hb q (hpq q hq)

theorem TogglesOnly.bits {C : List Gate} {t : Nat} {eff : Nat → Bool}
    (h : TogglesOnly C t eff) (b : Nat) :
    runBits C b = flipWhen (eff b) t b := by
  have := h ⟨b, false⟩
  have hb := congrArg QState.bits this
  rw [run_bits_eq] at hb
  exact hb

theorem TogglesOnly.sign {C : List Gate} {t : Nat} {eff : Nat → Bool}
    (h : TogglesOnly C t eff) (s : QState) : (run C s).sign = s.sign := by
  rw [h s]

/-- A single well-formed toggle gate toggles only its target. -/
theorem togglesOnly_single {g : Gate} {t : Nat} (ht : g.target = some t)
    (hok : g.phaseFree) : TogglesOnly [g] t (g.gcond) := by
  intro s
  show g.apply s = _
  unfold Gate.apply Gate.bitsEffect
  rw [ht, Gate.signEffect_of_phaseFree hok, Bool.xor_false]

/-- Compute/uncompute bracket around a toggle step: the composite circuit
`A ++ M ++ reverse A` is again a pure toggle of `t`, with condition evaluated
on the state computed by `A`. -/
theorem bracket_spec {A M : List Gate} {t : Nat} {effM : Nat → Bool}
    (hA : OkC A) (hAt : AvoidsBit A t) (hM : TogglesOnly M t effM) :
    TogglesOnly (A ++ M ++ A.reverse) t (fun b => effM (runBits A b)) := by
  intro s
  have hphase : ∀ g ∈ A, g.phaseFree := fun g hg => (hA g hg).2
  have hok : ∀ g ∈ A, g.Ok := fun g hg => (hA g hg).1
  have hbits : (run (A ++ M ++ A.reverse) s).bits =
      flipWhen (effM (runBits A s.bits)) t s.bits := by
    rw [run_bits_eq, runBits_append, runBits_append]
    set b₁ := runBits A s.bits with hb₁
    rw [hM.bits b₁]
    apply Nat.eq_of_testBit_eq
    intro q
    show getBit _ q = getBit (flipWhen (effM b₁) t s.bits) q
    by_cases hq : q = t
    · have hframe : getBit (runBits A.reverse (flipWhen (effM b₁) t b₁)) t =
          getBit (flipWhen (effM b₁) t b₁) t :=
        runBits_frame (fun g hg => (AvoidsBit_reverse hAt g hg).1) _
      rw [hq, hframe, getBit_flipWhen, getBit_flipWhen, if_pos rfl, if_pos rfl]
      have hbt : getBit b₁ t = getBit s.bits t := by
        rw [hb₁]; exact runBits_frame (fun g hg => (hAt g hg).1) s.bits
      rw [hbt]
    · have hagree : getBit (runBits A.reverse (flipWhen (effM b₁) t b₁)) q =
          getBit (runBits A.reverse b₁) q := by
        refine runBits_agree_except (AvoidsBit_reverse hAt) ?_ q hq
        intro q' hq'
        rw [getBit_flipWhen, if_neg hq']
      rw [hagree, runBits_reverse_cancel hok, getBit_flipWhen, if_neg hq]
  have hsign : (run (A ++ M ++ A.reverse) s).sign = s.sign := by
    rw [run_append, run_append, run_sign_of_phaseFree
      (fun g hg => hphase g (List.mem_reverse.mp hg)), hM.sign,
      run_sign_of_phaseFree hphase]
  cases hfin : run (A ++ M ++ A.reverse) s with
  | mk rb rs =>
      rw [hfin] at hbits hsign
      simp only at hbits hsign
      rw [hbits, hsign]

/-- Compute/uncompute bracket around a phase flip: the composite circuit
changes no bit at all and flips the sign exactly when the controls, read on
the state computed by `A`, are all zero. -/
theorem bracket_phase {A : List Gate} (cs : List Nat) (hA : OkC A) :
    ∀ s : QState, run (A ++ [Gate.mcz0 cs] ++ A.reverse) s =
      ⟨s.bits, Bool.xor s.sign ((Gate.mcz0 cs).gcond (runBits A s.bits))⟩ := by
  intro s
  have hphase : ∀ g ∈ A, g.phaseFree := fun g hg => (hA g hg).2
  have hok : ∀ g ∈ A, g.Ok := fun g hg => (hA g hg).1
  have hmid : ∀ s' : QState, run [Gate.mcz0 cs] s' =
      ⟨s'.bits, Bool.xor s'.sign ((Gate.mcz0 cs).gcond s'.bits)⟩ := by
    intro s'
    show (Gate.mcz0 cs).apply s' = _
    unfold Gate.apply Gate.bitsEffect Gate.signEffect
    rfl
  rw [run_append, run_append, hmid]
  have hbits : (run A s).bits = runBits A s.bits := run_bits_eq A s
  have hsignA : (run A s).sign = s.sign := run_sign_of_phaseFree hphase s
  have hbits2 : (run A.reverse ⟨(run A s).bits,
      Bool.xor (run A s).sign ((Gate.mcz0 cs).gcond (run A s).bits)⟩).bits =
      s.bits := by
    rw [run_bits_eq]
    show runBits A.reverse (run A s).bits = s.bits
    rw [hbits, runBits_reverse_cancel hok]
  have hsign2 : (run A.reverse ⟨(run A s).bits,
      Bool.xor (run A s).sign ((Gate.mcz0 cs).gcond (run A s).bits)⟩).sign =
      Bool.xor s.sign ((Gate.mcz0 cs).gcond (runBits A s.bits)) := by
    rw [run_sign_of_phaseFree (fun g hg => hphase g (List.mem_reverse.mp hg))]
    show Bool.xor (run A s).sign _ = _
    rw [hsignA, hbits]
  cases hfin : run A.reverse ⟨(run A s).bits,
      Bool.xor (run A s).sign ((Gate.mcz0 cs).gcond (run A s).bits)⟩ with
  | mk rb rs =>
      rw [hfin] at hbits2 hsign2
      simp only at hbits2 hsign2
      rw [hbits2, hsign2]

/-- Parallel pass of independent toggle blocks: targets are pairwise distinct
and no block's condition reads any target, so all toggle conditions are
evaluated on the entry state. -/
theorem pass_spec {α : Type} (P : Nat → Prop) {l : List α}
    {blk : α → List Gate} {tgt : α → Nat} {eff : α → Nat → Bool}
    (hblk : ∀ x ∈ l, TogglesOnly (blk x) (tgt x) (eff x))
    (hdep : ∀ x ∈ l, DependsOnlyOn P (eff x))
    (hTP : ∀ x ∈ l, ¬ P (tgt x))
    (hinj : l.Pairwise fun x y => tgt x ≠ tgt y) :
    ∀ s : QState,
      (∀ x ∈ l, getBit (run (l.flatMap blk) s).bits (tgt x)
          = Bool.xor (getBit s.bits (tgt x)) (eff x s.bits)) ∧
      (∀ q, (∀ x ∈ l, q ≠ tgt x) →
          getBit (run (l.flatMap blk) s).bits q = getBit s.bits q) ∧
      (run (l.flatMap blk) s).sign = s.sign := by
  induction l with
  | nil =>
      intro s
      refine ⟨fun x hx => absurd hx (List.not_mem_nil x), fun q _ => rfl, rfl⟩
  | cons x l ih =>
      intro s
      have hx := hblk x (List.mem_cons_self _ _)
      have hl : ∀ y ∈ l, TogglesOnly (blk y) (tgt y) (eff y) :=
        fun y hy => hblk y (List.mem_cons_of_mem _ hy)
      have hdepl : ∀ y ∈ l, DependsOnlyOn P (eff y) :=
        fun y hy => hdep y (List.mem_cons_of_mem _ hy)
      have hTPl : ∀ y ∈ l, ¬ P (tgt y) :=
        fun y hy => hTP y (List.mem_cons_of_mem _ hy)
      have hinjl : l.Pairwise fun a b => tgt a ≠ tgt b := hinj.of_cons
      have hxl : ∀ y ∈ l, tgt x ≠ tgt y := (List.pairwise_cons.mp hinj).1
      have hstep : run (List.flatMap (x :: l) blk) s =
          run (l.flatMap blk) (run (blk x) s) := by
        show run (blk x ++ l.flatMap blk) s = _
        rw [run_append]
      have hs₁eq : run (blk x) s =
          ⟨flipWhen (eff x s.bits) (tgt x) s.bits, s.sign⟩ := hx s
      have hagreeP : ∀ q, P q →
          getBit (run (blk x) s).bits q = getBit s.bits q := by
        intro q hq
        rw [hs₁eq]
        show getBit (flipWhen _ _ _) q = _
        rw [getBit_flipWhen, if_neg]
        intro hq'
        exact hTP x (List.mem_cons_self _ _) (hq' ▸ hq)
      have ih₁ := ih hl hdepl hTPl hinjl (run (blk x) s)
      refine ⟨?_, ?_, ?_⟩
      · intro y hy
        rcases List.mem_cons.mp hy with hyx | hyl
        · subst hyx
          rw [hstep]
          have hfr := ih₁.2.1 (tgt y) fun z hz => (hxl z hz)
          rw [hfr, hs₁eq]
          show getBit (flipWhen _ _ _) (tgt y) = _
          rw [getBit_flipWhen, if_pos rfl]
        · rw [hstep]
          have h1 := ih₁.1 y hyl
          rw [h1]
          have hb : getBit (run (blk x) s).bits (tgt y) = getBit s.bits (tgt y) := by
            rw [hs₁eq]
            show getBit (flipWhen _ _ _) (tgt y) = _
            rw [getBit_flipWhen, if_neg]
            exact fun h => hxl y hyl h.symm
          have he : eff y (run (blk x) s).bits = eff y s.bits :=
            hdepl y hyl _ _ hagreeP
          rw [hb, he]
      · intro q hq
        rw [hstep]
        have h2 := ih₁.2.1 q fun y hy => hq y (List.mem_cons_of_mem _ hy)
        rw [h2, hs₁eq]
        show getBit (flipWhen _ _ _) q = _
        rw [getBit_flipWhen, if_neg (hq x (List.mem_cons_self _ _))]
      · rw [hstep]
        have h3 := ih₁.2.2
        rw [h3, hs₁eq]

/-- Bounded search for the least `k` (starting at `k`) with `s ≤ 2 ^ k`. -/
def clog2Aux (s : Nat) : Nat → Nat → Nat
  | 0, k => k
  | fuel + 1, k => if s ≤ 2 ^ k then k else clog2Aux s fuel (k + 1)

/-- Per-cell bit width of the `Indexer` (`utils/indexer.py`):
`k = max(1, ceil(log2(max(n, m))))`, exactly as computed in the repository's
test notebooks. -/
def bitWidth (n m : Nat) : Nat := max 1 (clog2Aux (max n m) (max n m) 0)

/-- Number of data qubits: `n * m * k`. -/
def nmk (n m : Nat) : Nat := n * m * bitWidth n m

/-- Indexer layout of the flat register, as printed by the repository's test
notebooks: the data qubit holding bit `b` of cell `(i, j)`. -/
def dataIdx (n m i j b : Nat) : Nat := (i * m + j) * bitWidth n m + b

/-- Indexer layout: the `row_flag` qubit sits right after the data region. -/
def rowFlag (n m : Nat) : Nat := nmk n m

/-- Indexer layout: the `col_flag` qubit. -/
def colFlag (n m : Nat) : Nat := nmk n m + 1

/-- Indexer layout: the `cell_valid_flag` qubit. -/
def cellValidFlag (n m : Nat) : Nat := nmk n m + 2

/-- Indexer layout: the `global_flag` qubit. -/
def globalFlag (n m : Nat) : Nat := nmk n m + 3

/-- Indexer layout: ancilla `t` of the scratch pool. -/
def ancIdx (n m t : Nat) : Nat := nmk n m + 4 + t

/-- The layout of the model agrees with the layouts printed by the test
notebooks of the repository: the 2x5 row-uniqueness demo (48 qubits,
`row_flag` at 30), the 2x4 column demo (31 qubits, `col_flag` at 17) and the
3x3 oracle demo (32 qubits, `global_flag` at 21). -/
theorem layout_matches_notebooks :
    (bitWidth 2 5 = 3 ∧ nmk 2 5 + 4 + (3 + 2 * 5 + 2 - 1) = 48 ∧
      rowFlag 2 5 = 30 ∧ ancIdx 2 5 0 = 34) ∧
    (bitWidth 2 4 = 2 ∧ nmk 2 4 + 4 + (2 + 2 * 4 + 2 - 1) = 31 ∧
      colFlag 2 4 = 17 ∧ ancIdx 2 4 0 = 20) ∧
    (bitWidth 3 3 = 2 ∧ nmk 3 3 + 4 + (2 + 2 * 3 + 3 - 1) = 32 ∧
      globalFlag 3 3 = 21 ∧ ancIdx 3 3 0 = 22) := by decide

theorem bitWidth_pos (n m : Nat) : 1 ≤ bitWidth n m := Nat.le_max_left 1 _

theorem clog2Aux_le_pow {s : Nat} (fuel k : Nat) (h : s ≤ 2 ^ (k + fuel)) :
    s ≤ 2 ^ clog2Aux s fuel k := by
  induction fuel generalizing k with
  | zero => simpa using h
  | succ fuel ih =>
      unfold clog2Aux
      by_cases hk : s ≤ 2 ^ k
      · rw [if_pos hk]; exact hk
      · rw [if_neg hk]
        refine ih (k + 1) ?_
        calc s ≤ 2 ^ (k + (fuel + 1)) := h
          _ = 2 ^ (k + 1 + fuel) := by ring_nf

theorem smax_le_pow (n m : Nat) : max n m ≤ 2 ^ bitWidth n m := by
  have h1 : max n m ≤ 2 ^ clog2Aux (max n m) (max n m) 0 := by
    refine clog2Aux_le_pow _ 0 ?_
    calc max n m ≤ 2 ^ max n m := Nat.le_of_lt (Nat.lt_two_pow _)
      _ = 2 ^ (0 + max n m) := by rw [Nat.zero_add]
  calc max n m ≤ 2 ^ clog2Aux (max n m) (max n m) 0 := h1
    _ ≤ 2 ^ bitWidth n m := Nat.pow_le_pow_right (by norm_num) (Nat.le_max_right 1 _)

theorem cellPos_lt {n m i j : Nat} (hi : i < n) (hj : j < m) :
    i * m + j < n * m := by
  calc i * m + j < i * m + m := Nat.add_lt_add_left hj _
    _ = (i + 1) * m := by ring
    _ ≤ n * m := Nat.mul_le_mul_right m hi

theorem cellPos_inj {m i j i' j' : Nat} (hj : j < m) (hj' : j' < m)
    (h : i * m + j = i' * m + j') : i = i' ∧ j = j' := by
  have hm : 0 < m := by omega
  have e1 : (i * m + j) % m = j := by
    rw [Nat.add_comm, Nat.add_mul_mod_self_right, Nat.mod_eq_of_lt hj]
  have e2 : (i' * m + j') % m = j' := by
    rw [Nat.add_comm, Nat.add_mul_mod_self_right, Nat.mod_eq_of_lt hj']
  have hjj : j = j' := by rw [← e1, ← e2, h]
  subst hjj
  have him : i * m = i' * m := by omega
  exact ⟨Nat.eq_of_mul_eq_mul_right hm him, rfl⟩

theorem dataIdx_lt_nmk {n m i j b : Nat} (hi : i < n) (hj : j < m)
    (hb : b < bitWidth n m) : dataIdx n m i j b < nmk n m := by
  unfold dataIdx nmk
  calc (i * m + j) * bitWidth n m + b
      < (i * m + j) * bitWidth n m + bitWidth n m := Nat.add_lt_add_left hb _
    _ = (i * m + j + 1) * bitWidth n m := by ring
    _ ≤ n * m * bitWidth n m := Nat.mul_le_mul_right _ (cellPos_lt hi hj)

theorem pairCode_lt {m j1 j2 : Nat} (h1 : j1 < j2) (h2 : j2 < m) :
    j1 * m + j2 < m * m := by
  have hj1 : j1 < m := Nat.lt_trans h1 h2
  exact cellPos_lt hj1 h2

/-- The register bits consisting of the data region plus the first `c`
ancillas (no flag qubit belongs to it). -/
def Region (n m c : Nat) : Nat → Prop := fun q =>
  q < nmk n m ∨ (nmk n m + 4 ≤ q ∧ q < nmk n m + 4 + c)

theorem Region.widen {n m c c' : Nat} (h : c ≤ c') (q : Nat)
    (hq : Region n m c q) : Region n m c' q := by
  unfold Region at hq ⊢; omega

theorem dataIdx_mem_Region {n m i j b c : Nat} (hi : i < n) (hj : j < m)
    (hb : b < bitWidth n m) : Region n m c (dataIdx n m i j b) :=
  Or.inl (dataIdx_lt_nmk hi hj hb)

theorem ancIdx_mem_Region {n m t c : Nat} (ht : t < c) :
    Region n m c (ancIdx n m t) := by
  unfold Region ancIdx; omega

theorem ancIdx_not_mem_Region {n m t c : Nat} (ht : c ≤ t) :
    ¬ Region n m c (ancIdx n m t) := by
  unfold Region ancIdx; omega

/-- Flipping twice with arbitrary conditions composes through `Bool.xor`. -/
theorem flipWhen_comp (a b : Bool) (t s : Nat) :
    flipWhen a t (flipWhen b t s) = flipWhen (Bool.xor a b) t s := by
  cases a with
  | false => simp [flipWhen]
  | true =>
      cases b with
      | false => simp [flipWhen]
      | true => simp [flipWhen, flipBit, Nat.xor_cancel_right]

theorem list_any_eq_not_all_not {α : Type} (l : List α) (p : α → Bool) :
    l.any p = !(l.all fun x => !(p x)) := by
  induction l with
  | nil => rfl
  | cons a l ih =>
      rw [List.any_cons, List.all_cons, ih]
      cases p a <;> simp

/-- OR of the listed bits. -/
def anyOr (srcs : List Nat) (b : Nat) : Bool := srcs.any fun q => getBit b q

/-- Multi-input OR into `t` via De Morgan: an X on `t` followed by a
multi-controlled X with every control negated (`mcx` + X), the aggregation
pattern described in `oracle/README.md`. -/
def orInto (srcs : List Nat) (t : Nat) : List Gate :=
  [Gate.mcx [] t, Gate.mcx0 srcs t]

theorem orInto_spec {srcs : List Nat} {t : Nat} (h : t ∉ srcs) :
    TogglesOnly (orInto srcs t) t (anyOr srcs) := by
  intro s
  have hbits : (run (orInto srcs t) s).bits =
      flipWhen (anyOr srcs s.bits) t s.bits := by
    show (Gate.mcx0 srcs t).bitsEffect ((Gate.mcx [] t).bitsEffect s.bits) = _
    have e1 : (Gate.mcx [] t).bitsEffect s.bits = flipWhen true t s.bits := rfl
    rw [e1]
    have hcond : (Gate.mcx0 srcs t).gcond (flipWhen true t s.bits) =
        (Gate.mcx0 srcs t).gcond s.bits := by
      refine Gate.gcond_congr fun q hq => ?_
      rw [getBit_flipWhen, if_neg]
      intro hqt
      exact h (hqt ▸ hq)
    show flipWhen ((Gate.mcx0 srcs t).gcond (flipWhen true t s.bits)) t
        (flipWhen true t s.bits) = _
    rw [hcond, flipWhen_comp]
    have he : Bool.xor ((Gate.mcx0 srcs t).gcond s.bits) true =
        anyOr srcs s.bits := by
      show Bool.xor (srcs.all fun q => !(getBit s.bits q)) true = _
      rw [anyOr, list_any_eq_not_all_not, Bool.xor_true]
    rw [he]
  have hsign : (run (orInto srcs t) s).sign = s.sign := by
    refine run_sign_of_phaseFree ?_ s
    intro g hg
    rcases List.mem_cons.mp hg with rfl | hg'
    · trivial
    · rcases List.mem_cons.mp hg' with rfl | hg''
      · trivial
      · exact absurd hg'' (List.not_mem_nil _)
  cases hfin : run (orInto srcs t) s with
  | mk rb rs =>
      rw [hfin] at hbits hsign
      simp only at hbits hsign
      rw [hbits, hsign]

/-- `prepare_ancilla_cell_validity` (`utils/helpers.py`).
Modelled from the spec: the source is not under `src/`; per the spec and
`oracle/README.md` it writes the bit pattern of the constant into the first
`k` ancillas with one X gate per set bit, and is exactly self-inverse. -/
def prepare_constant (n m c : Nat) : List Gate :=
  ((List.range (bitWidth n m)).filter fun b => c.testBit b).map
    fun b => Gate.mcx [] (ancIdx n m b)

/-- The list of cells `(i, j)` of the grid, row-major. -/
def cellsList (n m : Nat) : List (Nat × Nat) :=
  (List.range n).flatMap fun i => (List.range m).map fun j => (i, j)

theorem mem_cellsList {n m : Nat} {p : Nat × Nat} :
    p ∈ cellsList n m ↔ p.1 < n ∧ p.2 < m := by
  unfold cellsList
  rw [List.mem_flatMap]
  constructor
  · rintro ⟨i, hi, hp⟩
    rcases List.mem_map.mp hp with ⟨j, hj, rfl⟩
    exact ⟨List.mem_range.mp hi, List.mem_range.mp hj⟩
  · rintro ⟨h1, h2⟩
    refine ⟨p.1, List.mem_range.mpr h1, List.mem_map.mpr ⟨p.2, List.mem_range.mpr h2, ?_⟩⟩
    cases p
    rfl

theorem cellsList_nodup (n m : Nat) : (cellsList n m).Nodup := by
  induction n with
  | zero => exact List.nodup_nil
  | succ n ih =>
      have hsplit : cellsList (n + 1) m =
          cellsList n m ++ (List.range m).map fun j => (n, j) := by
        unfold cellsList
        rw [List.range_succ, List.flatMap_append]
        simp
      rw [hsplit]
      refine List.Nodup.append ih
        (List.Nodup.map (fun j j' h => by injection h) (List.nodup_range _)) ?_
      intro p hp hp'
      rcases (mem_cellsList.mp hp) with ⟨h1, _⟩
      rcases List.mem_map.mp hp' with ⟨j, _, rfl⟩
      exact absurd h1 (Nat.lt_irrefl n)

/-- The list of index pairs `(j1, j2)` with `j1 < j2 < c`: the unordered cell
pairs compared by the uniqueness oracles. -/
def pairsList (c : Nat) : List (Nat × Nat) :=
  (List.range c).flatMap fun j2 => (List.range j2).map fun j1 => (j1, j2)

theorem mem_pairsList {c : Nat} {p : Nat × Nat} :
    p ∈ pairsList c ↔ p.1 < p.2 ∧ p.2 < c := by
  unfold pairsList
  rw [List.mem_flatMap]
  constructor
  · rintro ⟨j2, hj2, hp⟩
    rcases List.mem_map.mp hp with ⟨j1, hj1, rfl⟩
    exact ⟨List.mem_range.mp hj1, List.mem_range.mp hj2⟩
  · rintro ⟨h1, h2⟩
    refine ⟨p.2, List.mem_range.mpr h2, List.mem_map.mpr ⟨p.1, List.mem_range.mpr h1, ?_⟩⟩
    cases p
    rfl

theorem pairsList_nodup (c : Nat) : (pairsList c).Nodup := by
  induction c with
  | zero => exact List.nodup_nil
  | succ c ih =>
      have hsplit : pairsList (c + 1) =
          pairsList c ++ (List.range c).map fun j1 => (j1, c) := by
        unfold pairsList
        rw [List.range_succ, List.flatMap_append]
        simp
      rw [hsplit]
      refine List.Nodup.append ih
        (List.Nodup.map (fun j j' h => by injection h) (List.nodup_range _)) ?_
      intro p hp hp'
      rcases (mem_pairsList.mp hp) with ⟨_, h2⟩
      rcases List.mem_map.mp hp' with ⟨j, _, rfl⟩
      exact absurd h2 (Nat.lt_irrefl c)

/-- `comparator_equal` (`utils/helpers.py`): XNOR step.
Modelled from the spec: the source is not under `src/`; per the spec the
bitwise XNOR of two equal-width registers is computed into designated scratch
bits (two CX and one X per bit position). -/
def xnorStep (w : Nat) (a b s : Nat → Nat) : List Gate :=
  (List.range w).flatMap fun i =>
    [Gate.mcx [a i] (s i), Gate.mcx [b i] (s i), Gate.mcx [] (s i)]

/-- `comparator_equal` (`utils/helpers.py`).
Modelled from the spec: XNOR of the operands into scratch, a multi-input AND
(`mcx` on all scratch bits) into `target`, then the XNOR step reversed so the
scratch bits are restored. -/
def comparator_equal (w : Nat) (a b s : Nat → Nat) (t : Nat) : List Gate :=
  xnorStep w a b s ++ [Gate.mcx ((List.range w).map s) t] ++
    (xnorStep w a b s).reverse

/-- Toggle condition of `comparator_equal`, evaluated on the entry state:
all XNOR scratch bits end up set. -/
def ceEff (w : Nat) (a b s : Nat → Nat) (bits : Nat) : Bool :=
  (List.range w).all fun i =>
    Bool.xor (getBit bits (s i))
      (!(Bool.xor (getBit bits (a i)) (getBit bits (b i))))

theorem pass_spec_bits {α : Type} (P : Nat → Prop) {l : List α}
    {blk : α → List Gate} {tgt : α → Nat} {eff : α → Nat → Bool}
    (hblk : ∀ x ∈ l, TogglesOnly (blk x) (tgt x) (eff x))
    (hdep : ∀ x ∈ l, DependsOnlyOn P (eff x))
    (hTP : ∀ x ∈ l, ¬ P (tgt x))
    (hinj : l.Pairwise fun x y => tgt x ≠ tgt y) (b : Nat) :
    (∀ x ∈ l, getBit (runBits (l.flatMap blk) b) (tgt x)
        = Bool.xor (getBit b (tgt x)) (eff x b)) ∧
    (∀ q, (∀ x ∈ l, q ≠ tgt x) →
        getBit (runBits (l.flatMap blk) b) q = getBit b q) := by
  have h := pass_spec P hblk hdep hTP hinj ⟨b, false⟩
  constructor
  · intro x hx
    have hx' := h.1 x hx
    rw [run_bits_eq] at hx'
    exact hx'
  · intro q hq
    have hq' := h.2.1 q hq
    rw [run_bits_eq] at hq'
    exact hq'

theorem xor_true_xor (c1 c2 : Bool) :
    Bool.xor (Bool.xor true c2) c1 = !(Bool.xor c1 c2) := by
  cases c1 <;> cases c2 <;> rfl

theorem xnor_block_spec {a b : Nat} {t : Nat} (hb : t ≠ b) :
    TogglesOnly [Gate.mcx [a] t, Gate.mcx [b] t, Gate.mcx [] t] t
      (fun bits => !(Bool.xor (getBit bits a) (getBit bits b))) := by
  intro s
  have hbits : (run [Gate.mcx [a] t, Gate.mcx [b] t, Gate.mcx [] t] s).bits =
      flipWhen (!(Bool.xor (getBit s.bits a) (getBit s.bits b))) t s.bits := by
    show (Gate.mcx [] t).bitsEffect ((Gate.mcx [b] t).bitsEffect
      ((Gate.mcx [a] t).bitsEffect s.bits)) = _
    have e1 : (Gate.mcx [a] t).bitsEffect s.bits =
        flipWhen (getBit s.bits a) t s.bits := by
      show flipWhen ([a].all fun q => getBit s.bits q) t s.bits = _
      simp [List.all_cons]
    rw [e1]
    have e2 : (Gate.mcx [b] t).bitsEffect (flipWhen (getBit s.bits a) t s.bits) =
        flipWhen (getBit s.bits b) t (flipWhen (getBit s.bits a) t s.bits) := by
      show flipWhen ([b].all fun q => getBit _ q) t _ = _
      have : getBit (flipWhen (getBit s.bits a) t s.bits) b = getBit s.bits b := by
        rw [getBit_flipWhen, if_neg (fun h => hb h.symm)]
      simp [List.all_cons, this]
    rw [e2]
    have e3 : ∀ x, (Gate.mcx [] t).bitsEffect x = flipWhen true t x := fun x => rfl
    rw [e3, flipWhen_comp, flipWhen_comp, xor_true_xor]
  have hsign : (run [Gate.mcx [a] t, Gate.mcx [b] t, Gate.mcx [] t] s).sign =
      s.sign := by
    refine run_sign_of_phaseFree ?_ s
    intro g hg
    rcases List.mem_cons.mp hg with rfl | hg
    · trivial
    rcases List.mem_cons.mp hg with rfl | hg
    · trivial
    rcases List.mem_cons.mp hg with rfl | hg
    · trivial
    exact absurd hg (List.not_mem_nil _)
  cases hfin : run [Gate.mcx [a] t, Gate.mcx [b] t, Gate.mcx [] t] s with
  | mk rb rs =>
      rw [hfin] at hbits hsign
      simp only at hbits hsign
      rw [hbits, hsign]

/-- The disjointness facts `comparator_equal` needs of its operand, scratch
and target qubits. -/
structure CeSep (w : Nat) (a b s : Nat → Nat) (t : Nat) : Prop where
  sa : ∀ i < w, ∀ j < w, s j ≠ a i
  sb : ∀ i < w, ∀ j < w, s j ≠ b i
  sinj : ∀ i < w, ∀ j < w, s i = s j → i = j
  ts : ∀ i < w, t ≠ s i
  ta : ∀ i < w, t ≠ a i
  tb : ∀ i < w, t ≠ b i

theorem xnorStep_ok {w : Nat} {a b s : Nat → Nat} {t : Nat}
    (h : CeSep w a b s t) : OkC (xnorStep w a b s) := by
  refine OkC_flatMap ?_
  intro i hi
  have hiw := List.mem_range.mp hi
  intro g hg
  rcases List.mem_cons.mp hg with rfl | hg
  · refine ⟨?_, trivial⟩
    intro t' ht'
    have ht'' : t' = s i := (Option.some.inj ht').symm
    subst ht''
    intro hmem
    rcases List.mem_cons.mp hmem with h' | h'
    · exact h.sa i hiw i hiw h'
    · exact absurd h' (List.not_mem_nil _)
  rcases List.mem_cons.mp hg with rfl | hg
  · refine ⟨?_, trivial⟩
    intro t' ht'
    have ht'' : t' = s i := (Option.some.inj ht').symm
    subst ht''
    intro hmem
    rcases List.mem_cons.mp hmem with h' | h'
    · exact h.sb i hiw i hiw h'
    · exact absurd h' (List.not_mem_nil _)
  rcases List.mem_cons.mp hg with rfl | hg
  · exact ⟨fun t' ht' hmem => absurd hmem (List.not_mem_nil _), trivial⟩
  exact absurd hg (List.not_mem_nil _)

theorem xnorStep_avoids {w : Nat} {a b s : Nat → Nat} {t : Nat}
    (h : CeSep w a b s t) : AvoidsBit (xnorStep w a b s) t := by
  refine AvoidsBit_flatMap ?_
  intro i hi
  have hiw := List.mem_range.mp hi
  intro g hg
  rcases List.mem_cons.mp hg with rfl | hg
  · refine ⟨?_, ?_⟩
    · intro ht'
      have hst : s i = t := Option.some.inj ht'
      exact h.ts i hiw hst.symm
    · intro hmem
      rcases List.mem_cons.mp hmem with h' | h'
      · exact h.ta i hiw h'
      · exact absurd h' (List.not_mem_nil _)
  rcases List.mem_cons.mp hg with rfl | hg
  · refine ⟨?_, ?_⟩
    · intro ht'
      have hst : s i = t := Option.some.inj ht'
      exact h.ts i hiw hst.symm
    · intro hmem
      rcases List.mem_cons.mp hmem with h' | h'
      · exact h.tb i hiw h'
      · exact absurd h' (List.not_mem_nil _)
  rcases List.mem_cons.mp hg with rfl | hg
  · refine ⟨?_, fun hmem => absurd hmem (List.not_mem_nil _)⟩
    intro ht'
    have hst : s i = t := Option.some.inj ht'
    exact h.ts i hiw hst.symm
  exact absurd hg (List.not_mem_nil _)

theorem xnorStep_spec {w : Nat} {a b s : Nat → Nat} {t : Nat}
    (h : CeSep w a b s t) (bits : Nat) :
    (∀ i < w, getBit (runBits (xnorStep w a b s) bits) (s i)
        = Bool.xor (getBit bits (s i))
            (!(Bool.xor (getBit bits (a i)) (getBit bits (b i))))) ∧
    (∀ q, (∀ i < w, q ≠ s i) →
        getBit (runBits (xnorStep w a b s) bits) q = getBit bits q) := by
  have hblk : ∀ i ∈ List.range w,
      TogglesOnly [Gate.mcx [a i] (s i), Gate.mcx [b i] (s i), Gate.mcx [] (s i)]
        (s i)
        (fun bits => !(Bool.xor (getBit bits (a i)) (getBit bits (b i)))) := by
    intro i hi
    exact xnor_block_spec (h.sb i (List.mem_range.mp hi) i (List.mem_range.mp hi))
  have hdep : ∀ i ∈ List.range w, DependsOnlyOn
      (fun q => ∃ i' < w, q = a i' ∨ q = b i')
      (fun bits => !(Bool.xor (getBit bits (a i)) (getBit bits (b i)))) := by
    intro i hi bits1 bits2 hagree
    have hiw := List.mem_range.mp hi
    show (!(Bool.xor (getBit bits1 (a i)) (getBit bits1 (b i)))) =
      (!(Bool.xor (getBit bits2 (a i)) (getBit bits2 (b i))))
    rw [hagree (a i) ⟨i, hiw, Or.inl rfl⟩, hagree (b i) ⟨i, hiw, Or.inr rfl⟩]
  have hTP : ∀ i ∈ List.range w,
      ¬ (∃ i' < w, s i = a i' ∨ s i = b i') := by
    intro i hi hex
    rcases hex with ⟨i', hi', hcase⟩
    have hiw := List.mem_range.mp hi
    rcases hcase with hc | hc
    · exact h.sa i' hi' i hiw hc
    · exact h.sb i' hi' i hiw hc
  have hinj : (List.range w).Pairwise fun i j => s i ≠ s j := by
    refine (List.nodup_range w).imp_of_mem ?_
    intro i j hi hj hij hsij
    exact hij (h.sinj i (List.mem_range.mp hi) j (List.mem_range.mp hj) hsij)
  have hp := pass_spec_bits (fun q => ∃ i' < w, q = a i' ∨ q = b i') hblk hdep hTP hinj bits
  refine ⟨?_, ?_⟩
  · intro i hi
    exact hp.1 i (List.mem_range.mpr hi)
  · intro q hq
    exact hp.2 q fun i hi => hq i (List.mem_range.mp hi)

/-- `comparator_equal` is a clean toggle of its target: it toggles `t` by the
all-scratch-XNOR condition evaluated at entry and restores every other bit. -/
theorem ce_spec {w : Nat} {a b s : Nat → Nat} {t : Nat} (h : CeSep w a b s t) :
    TogglesOnly (comparator_equal w a b s t) t (ceEff w a b s) := by
  have hM : TogglesOnly [Gate.mcx ((List.range w).map s) t] t
      ((Gate.mcx ((List.range w).map s) t).gcond) :=
    togglesOnly_single rfl trivial
  have hbr := bracket_spec (xnorStep_ok h) (xnorStep_avoids h) hM
  refine hbr.congr ?_
  intro bits
  show ((List.range w).map s).all
      (fun q => getBit (runBits (xnorStep w a b s) bits) q) = ceEff w a b s bits
  rw [List.all_map]
  refine list_all_congr ?_
  intro i hi
  have hiw := List.mem_range.mp hi
  show getBit (runBits (xnorStep w a b s) bits) (s i) = _
  rw [(xnorStep_spec h bits).1 i hiw]

/-- The `k` data qubits of cell `(i, j)`, LSB first. -/
def cellBitsF (n m i j : Nat) : Nat → Nat := fun b => dataIdx n m i j b

/-- The first `k` ancillas, used both as the XNOR scratch of
`comparator_equal` and as the threshold register of the cell-validity check. -/
def lowAncF (n m : Nat) : Nat → Nat := fun b => ancIdx n m b

/-- The `k`-bit value of cell `(i, j)` read from the register state. -/
def gridVal (bits n m i j : Nat) : Nat :=
  valOf bits (cellBitsF n m i j) (bitWidth n m)

/-- Scratch flag recording an out-of-range value of cell `(i, j)` in the
cell-validity sub-oracle. -/
def cellFlagIdx (n m i j : Nat) : Nat :=
  ancIdx n m (bitWidth n m + (i * m + j))

/-- Scratch flag of a cell pair compared inside one row. -/
def rowPairFlagIdx (n m : Nat) (pr : Nat × Nat) : Nat :=
  ancIdx n m (bitWidth n m + (pr.1 * m + pr.2))

/-- Scratch flag of a cell pair compared inside one column. -/
def colPairFlagIdx (n m : Nat) (pr : Nat × Nat) : Nat :=
  ancIdx n m (bitWidth n m + (pr.1 * n + pr.2))

/-- Per-row violation scratch flag. -/
def rowScratchIdx (n m i : Nat) : Nat := ancIdx n m (bitWidth n m + m * m + i)

/-- Per-column violation scratch flag. -/
def colScratchIdx (n m j : Nat) : Nat := ancIdx n m (bitWidth n m + n * n + j)

/-- `cell_validity` per-cell range check: one `comparator_less` of the cell
against the shared threshold ancillas into the cell's scratch flag. -/
def cellCmp (n m : Nat) (p : Nat × Nat) : List Gate :=
  [Gate.cmpGE (bitWidth n m) (cellBitsF n m p.1 p.2) (lowAncF n m)
    (cellFlagIdx n m p.1 p.2)]

/-- `cell_validity_circuit` (`oracle/cell_validity.py`).
Modelled from the spec: the source is not under `src/`; per the spec and
`oracle/README.md` it prepares the constant `2 ^ k - max(n, m)` in `k`
ancillas, runs `comparator_less` for every cell into a per-cell scratch flag,
ORs the per-cell flags into `cell_valid_flag` by a multi-controlled OR, then
reverses all comparator calls and the threshold preparation. -/
def cell_validity (n m : Nat) : List Gate :=
  (prepare_constant n m (2 ^ bitWidth n m - max n m) ++
      (cellsList n m).flatMap (cellCmp n m)) ++
    orInto ((cellsList n m).map fun p => cellFlagIdx n m p.1 p.2)
      (cellValidFlag n m) ++
    (prepare_constant n m (2 ^ bitWidth n m - max n m) ++
      (cellsList n m).flatMap (cellCmp n m)).reverse

/-- One pairwise `comparator_equal` of two cells of row `i`. -/
def rowCe (n m i : Nat) (pr : Nat × Nat) : List Gate :=
  comparator_equal (bitWidth n m) (cellBitsF n m i pr.1) (cellBitsF n m i pr.2)
    (lowAncF n m) (rowPairFlagIdx n m pr)

/-- The compute/aggregate/uncompute bracket of one row: all pairwise
comparisons, an OR of the pair flags into the per-row scratch flag, and the
comparisons reversed. -/
def rowBracket (n m i : Nat) : List Gate :=
  ((pairsList m).flatMap (rowCe n m i)) ++
    orInto ((pairsList m).map (rowPairFlagIdx n m)) (rowScratchIdx n m i) ++
    ((pairsList m).flatMap (rowCe n m i)).reverse

/-- `row_uniqueness_circuit` (`oracle/row_uniqueness.py`).
Modelled from the spec: the source is not under `src/`; per the spec and
`oracle/README.md` each row is processed by pairwise `comparator_equal` calls
aggregated into a per-row flag (with the comparators then reversed), the `n`
per-row flags are ORed into `row_flag`, and the per-row aggregation is
reversed. -/
def row_uniqueness (n m : Nat) : List Gate :=
  ((List.range n).flatMap (rowBracket n m)) ++
    orInto ((List.range n).map (rowScratchIdx n m)) (rowFlag n m) ++
    ((List.range n).flatMap (rowBracket n m)).reverse

/-- One pairwise `comparator_equal` of two cells of column `j`. -/
def colCe (n m j : Nat) (pr : Nat × Nat) : List Gate :=
  comparator_equal (bitWidth n m) (cellBitsF n m pr.1 j) (cellBitsF n m pr.2 j)
    (lowAncF n m) (colPairFlagIdx n m pr)

/-- The compute/aggregate/uncompute bracket of one column. -/
def colBracket (n m j : Nat) : List Gate :=
  ((pairsList n).flatMap (colCe n m j)) ++
    orInto ((pairsList n).map (colPairFlagIdx n m)) (colScratchIdx n m j) ++
    ((pairsList n).flatMap (colCe n m j)).reverse

/-- `column_uniqueness_circuit` (`oracle/column_uniqueness.py`).
Modelled from the spec: the transposed twin of `row_uniqueness`. -/
def column_uniqueness (n m : Nat) : List Gate :=
  ((List.range m).flatMap (colBracket n m)) ++
    orInto ((List.range m).map (colScratchIdx n m)) (colFlag n m) ++
    ((List.range m).flatMap (colBracket n m)).reverse

/-- `oracle` (`oracle/oracle.py`).
Modelled from the spec: the source is not under `src/`; per the spec and
`oracle/README.md` the three sub-oracles run in sequence, a single
multi-controlled phase flip marks the basis states whose three flags show the
all-valid pattern (all zero), and the three sub-oracles are reversed in
opposite order. -/
def oracle (n m : Nat) : List Gate :=
  (cell_validity n m ++ row_uniqueness n m ++ column_uniqueness n m) ++
    [Gate.mcz0 [rowFlag n m, colFlag n m, cellValidFlag n m]] ++
    (cell_validity n m ++ row_uniqueness n m ++ column_uniqueness n m).reverse

/-- Toggle condition of one cell's range check, on the state where the
threshold ancillas are already prepared. -/
def cellCmpEff (n m : Nat) (p : Nat × Nat) (bits : Nat) : Bool :=
  decide (2 ^ bitWidth n m ≤
    valOf bits (cellBitsF n m p.1 p.2) (bitWidth n m) +
      valOf bits (lowAncF n m) (bitWidth n m))

/-- Toggle condition of the whole cell-validity sub-oracle on `cell_valid_flag`,
evaluated on the entry state. -/
def cvEff (n m : Nat) (bits : Nat) : Bool :=
  (cellsList n m).any fun p =>
    Bool.xor (getBit bits (cellFlagIdx n m p.1 p.2))
      (cellCmpEff n m p
        (runBits (prepare_constant n m (2 ^ bitWidth n m - max n m)) bits))

/-- Toggle condition of one row-pair comparison, evaluated at entry. -/
def rowCeEff (n m i : Nat) (pr : Nat × Nat) (bits : Nat) : Bool :=
  ceEff (bitWidth n m) (cellBitsF n m i pr.1) (cellBitsF n m i pr.2)
    (lowAncF n m) bits

/-- Toggle condition of one row bracket on its per-row scratch flag. -/
def rowEff (n m i : Nat) (bits : Nat) : Bool :=
  (pairsList m).any fun pr =>
    Bool.xor (getBit bits (rowPairFlagIdx n m pr)) (rowCeEff n m i pr bits)

/-- Toggle condition of the row-uniqueness sub-oracle on `row_flag`. -/
def rowUniqEff (n m : Nat) (bits : Nat) : Bool :=
  (List.range n).any fun i =>
    Bool.xor (getBit bits (rowScratchIdx n m i)) (rowEff n m i bits)

/-- Toggle condition of one column-pair comparison, evaluated at entry. -/
def colCeEff (n m j : Nat) (pr : Nat × Nat) (bits : Nat) : Bool :=
  ceEff (bitWidth n m) (cellBitsF n m pr.1 j) (cellBitsF n m pr.2 j)
    (lowAncF n m) bits

/-- Toggle condition of one column bracket on its per-column scratch flag. -/
def colEff (n m j : Nat) (bits : Nat) : Bool :=
  (pairsList n).any fun pr =>
    Bool.xor (getBit bits (colPairFlagIdx n m pr)) (colCeEff n m j pr bits)

/-- Toggle condition of the column-uniqueness sub-oracle on `col_flag`. -/
def colUniqEff (n m : Nat) (bits : Nat) : Bool :=
  (List.range m).any fun j =>
    Bool.xor (getBit bits (colScratchIdx n m j)) (colEff n m j bits)

theorem ancIdx_inj {n m t t' : Nat} (h : ancIdx n m t = ancIdx n m t') :
    t = t' := by
  unfold ancIdx at h; omega

theorem ancIdx_ne {n m t t' : Nat} (h : t ≠ t') :
    ancIdx n m t ≠ ancIdx n m t' := fun hEq => h (ancIdx_inj hEq)

theorem ancIdx_ne_dataIdx {n m i j b t : Nat} (hi : i < n) (hj : j < m)
    (hb : b < bitWidth n m) : ancIdx n m t ≠ dataIdx n m i j b := by
  have hd := dataIdx_lt_nmk hi hj hb
  unfold ancIdx
  omega

theorem orInto_okC {srcs : List Nat} {t : Nat} (h : t ∉ srcs) :
    OkC (orInto srcs t) := by
  intro g hg
  rcases List.mem_cons.mp hg with rfl | hg
  · exact ⟨fun t' ht' hmem => absurd hmem (List.not_mem_nil _), trivial⟩
  rcases List.mem_cons.mp hg with rfl | hg
  · refine ⟨?_, trivial⟩
    intro t' ht' hmem
    have : t = t' := Option.some.inj ht'
    exact h (this ▸ hmem)
  exact absurd hg (List.not_mem_nil _)

theorem orInto_avoids {srcs : List Nat} {t q : Nat} (hq : q ≠ t)
    (hqs : q ∉ srcs) : AvoidsBit (orInto srcs t) q := by
  intro g hg
  rcases List.mem_cons.mp hg with rfl | hg
  · exact ⟨fun ht' => hq (Option.some.inj ht').symm,
      fun hmem => absurd hmem (List.not_mem_nil _)⟩
  rcases List.mem_cons.mp hg with rfl | hg
  · exact ⟨fun ht' => hq (Option.some.inj ht').symm, hqs⟩
  exact absurd hg (List.not_mem_nil _)

theorem ce_okC {w : Nat} {a b s : Nat → Nat} {t : Nat} (h : CeSep w a b s t) :
    OkC (comparator_equal w a b s t) := by
  refine OkC_append (OkC_append (xnorStep_ok h) ?_) (OkC_reverse (xnorStep_ok h))
  intro g hg
  rcases List.mem_cons.mp hg with rfl | hg
  · refine ⟨?_, trivial⟩
    intro t' ht' hmem
    have htt : t = t' := Option.some.inj ht'
    subst htt
    rcases List.mem_map.mp hmem with ⟨i, hi, hsi⟩
    exact h.ts i (List.mem_range.mp hi) hsi.symm
  exact absurd hg (List.not_mem_nil _)

theorem xnorStep_avoids_of {w : Nat} {a b s : Nat → Nat} {q : Nat}
    (hqs : ∀ i < w, q ≠ s i) (hqa : ∀ i < w, q ≠ a i)
    (hqb : ∀ i < w, q ≠ b i) : AvoidsBit (xnorStep w a b s) q := by
  refine AvoidsBit_flatMap ?_
  intro i hi
  have hiw := List.mem_range.mp hi
  intro g hg
  rcases List.mem_cons.mp hg with rfl | hg
  · refine ⟨fun ht' => hqs i hiw (Option.some.inj ht').symm, ?_⟩
    intro hmem
    rcases List.mem_cons.mp hmem with h' | h'
    · exact hqa i hiw h'
    · exact absurd h' (List.not_mem_nil _)
  rcases List.mem_cons.mp hg with rfl | hg
  · refine ⟨fun ht' => hqs i hiw (Option.some.inj ht').symm, ?_⟩
    intro hmem
    rcases List.mem_cons.mp hmem with h' | h'
    · exact hqb i hiw h'
    · exact absurd h' (List.not_mem_nil _)
  rcases List.mem_cons.mp hg with rfl | hg
  · exact ⟨fun ht' => hqs i hiw (Option.some.inj ht').symm,
      fun hmem => absurd hmem (List.not_mem_nil _)⟩
  exact absurd hg (List.not_mem_nil _)

theorem ce_avoids {w : Nat} {a b s : Nat → Nat} {t q : Nat}
    (hqs : ∀ i < w, q ≠ s i) (hqa : ∀ i < w, q ≠ a i)
    (hqb : ∀ i < w, q ≠ b i) (hqt : q ≠ t) :
    AvoidsBit (comparator_equal w a b s t) q := by
  refine AvoidsBit_append (AvoidsBit_append (xnorStep_avoids_of hqs hqa hqb) ?_)
    (AvoidsBit_reverse (xnorStep_avoids_of hqs hqa hqb))
  intro g hg
  rcases List.mem_cons.mp hg with rfl | hg
  · refine ⟨fun ht' => hqt (Option.some.inj ht').symm, ?_⟩
    intro hmem
    rcases List.mem_map.mp hmem with ⟨i, hi, hsi⟩
    exact hqs i (List.mem_range.mp hi) hsi.symm
  exact absurd hg (List.not_mem_nil _)

theorem list_any_congr {α : Type} {l : List α} {f g : α → Bool}
    (h : ∀ x ∈ l, f x = g x) : l.any f = l.any g := by
  induction l with
  | nil => rfl
  | cons a l ih =>
      simp only [List.any_cons, h a (List.mem_cons_self _ _),
        ih fun x hx => h x (List.mem_cons_of_mem _ hx)]

theorem list_any_map {α β : Type} (l : List α) (f : α → β) (p : β → Bool) :
    (l.map f).any p = l.any fun x => p (f x) := by
  induction l with
  | nil => rfl
  | cons a l ih => simp only [List.map_cons, List.any_cons, ih]

theorem dataIdx_ne_of_ge {n m i j b q : Nat} (hi : i < n) (hj : j < m)
    (hb : b < bitWidth n m) (hq : nmk n m ≤ q) : q ≠ dataIdx n m i j b := by
  have := dataIdx_lt_nmk hi hj hb
  omega

theorem lt_nmk4_ne_ancIdx {n m q t : Nat} (hq : q < nmk n m + 4) :
    q ≠ ancIdx n m t := by
  unfold ancIdx
  omega

theorem rowCeSep {n m i : Nat} {pr : Nat × Nat} (hi : i < n)
    (hpr : pr ∈ pairsList m) :
    CeSep (bitWidth n m) (cellBitsF n m i pr.1) (cellBitsF n m i pr.2)
      (lowAncF n m) (rowPairFlagIdx n m pr) := by
  rcases mem_pairsList.mp hpr with ⟨h12, h2m⟩
  have h1m : pr.1 < m := Nat.lt_trans h12 h2m
  refine ⟨?_, ?_, ?_, ?_, ?_, ?_⟩
  · intro b hb b' hb'
    exact ancIdx_ne_dataIdx hi h1m hb
  · intro b hb b' hb'
    exact ancIdx_ne_dataIdx hi h2m hb
  · intro b hb b' hb' hEq
    exact ancIdx_inj hEq
  · intro b hb
    show ancIdx n m (bitWidth n m + (pr.1 * m + pr.2)) ≠ ancIdx n m b
    exact ancIdx_ne (by omega)
  · intro b hb
    exact ancIdx_ne_dataIdx hi h1m hb
  · intro b hb
    exact ancIdx_ne_dataIdx hi h2m hb

theorem rowCeEff_dep {n m i : Nat} {pr : Nat × Nat} (hi : i < n)
    (hpr : pr ∈ pairsList m) :
    DependsOnlyOn (Region n m (bitWidth n m)) (rowCeEff n m i pr) := by
  intro b1 b2 hag
  rcases mem_pairsList.mp hpr with ⟨h12, h2m⟩
  have h1m : pr.1 < m := Nat.lt_trans h12 h2m
  unfold rowCeEff ceEff
  refine list_all_congr ?_
  intro bb hbb
  have hbbw := List.mem_range.mp hbb
  rw [hag (lowAncF n m bb) (ancIdx_mem_Region hbbw),
    hag (cellBitsF n m i pr.1 bb) (dataIdx_mem_Region hi h1m hbbw),
    hag (cellBitsF n m i pr.2 bb) (dataIdx_mem_Region hi h2m hbbw)]

theorem rowPair_pass_bits {n m i : Nat} (hi : i < n) (b : Nat) :
    (∀ pr ∈ pairsList m,
        getBit (runBits ((pairsList m).flatMap (rowCe n m i)) b)
            (rowPairFlagIdx n m pr)
          = Bool.xor (getBit b (rowPairFlagIdx n m pr)) (rowCeEff n m i pr b)) ∧
    (∀ q, (∀ pr ∈ pairsList m, q ≠ rowPairFlagIdx n m pr) →
        getBit (runBits ((pairsList m).flatMap (rowCe n m i)) b) q
          = getBit b q) := by
  refine pass_spec_bits (Region n m (bitWidth n m)) ?_ ?_ ?_ ?_ b
  · intro pr hpr
    exact ce_spec (rowCeSep hi hpr)
  · intro pr hpr
    exact rowCeEff_dep hi hpr
  · intro pr hpr
    rcases mem_pairsList.mp hpr with ⟨h12, h2m⟩
    show ¬ Region n m (bitWidth n m) (ancIdx n m (bitWidth n m + (pr.1 * m + pr.2)))
    exact ancIdx_not_mem_Region (by omega)
  · refine (pairsList_nodup m).imp_of_mem ?_
    intro pr pr' hpr hpr' hne hEq
    rcases mem_pairsList.mp hpr with ⟨h12, h2m⟩
    rcases mem_pairsList.mp hpr' with ⟨h12', h2m'⟩
    have hcode := ancIdx_inj hEq
    have hpos : pr.1 * m + pr.2 = pr'.1 * m + pr'.2 := by omega
    rcases cellPos_inj h2m h2m' hpos with ⟨hEq1, hEq2⟩
    exact hne (Prod.ext hEq1 hEq2)

theorem rowBracket_spec {n m i : Nat} (hi : i < n) :
    TogglesOnly (rowBracket n m i) (rowScratchIdx n m i) (rowEff n m i) := by
  have hscr_notin : rowScratchIdx n m i ∉
      (pairsList m).map (rowPairFlagIdx n m) := by
    intro hmem
    rcases List.mem_map.mp hmem with ⟨pr, hpr, hEq⟩
    rcases mem_pairsList.mp hpr with ⟨h12, h2m⟩
    have hcode := ancIdx_inj hEq.symm
    have := pairCode_lt h12 h2m
    omega
  have hA : OkC ((pairsList m).flatMap (rowCe n m i)) :=
    OkC_flatMap fun pr hpr => ce_okC (rowCeSep hi hpr)
  have hAt : AvoidsBit ((pairsList m).flatMap (rowCe n m i))
      (rowScratchIdx n m i) := by
    refine AvoidsBit_flatMap ?_
    intro pr hpr
    rcases mem_pairsList.mp hpr with ⟨h12, h2m⟩
    have h1m : pr.1 < m := Nat.lt_trans h12 h2m
    refine ce_avoids ?_ ?_ ?_ ?_
    · intro bb hbb
      exact ancIdx_ne (by omega)
    · intro bb hbb
      exact ancIdx_ne_dataIdx hi h1m hbb
    · intro bb hbb
      exact ancIdx_ne_dataIdx hi h2m hbb
    · show ancIdx n m (bitWidth n m + m * m + i) ≠
        ancIdx n m (bitWidth n m + (pr.1 * m + pr.2))
      have := pairCode_lt h12 h2m
      exact ancIdx_ne (by omega)
  have hM := orInto_spec hscr_notin
  have hbr := bracket_spec hA hAt hM
  refine hbr.congr ?_
  intro bits
  show anyOr ((pairsList m).map (rowPairFlagIdx n m))
      (runBits ((pairsList m).flatMap (rowCe n m i)) bits) = rowEff n m i bits
  unfold anyOr rowEff
  rw [list_any_map]
  refine list_any_congr ?_
  intro pr hpr
  show getBit (runBits ((pairsList m).flatMap (rowCe n m i)) bits)
      (rowPairFlagIdx n m pr) = _
  rw [(rowPair_pass_bits hi bits).1 pr hpr]

theorem rowEff_dep {n m i : Nat} (hi : i < n) :
    DependsOnlyOn (Region n m (bitWidth n m + m * m)) (rowEff n m i) := by
  intro b1 b2 hag
  unfold rowEff
  refine list_any_congr ?_
  intro pr hpr
  rcases mem_pairsList.mp hpr with ⟨h12, h2m⟩
  have hmem : Region n m (bitWidth n m + m * m)
      (ancIdx n m (bitWidth n m + (pr.1 * m + pr.2))) := by
    have := pairCode_lt h12 h2m
    exact ancIdx_mem_Region (by omega)
  have hce := (rowCeEff_dep hi hpr).mono
    (fun q hq => Region.widen (Nat.le_add_right _ _) q hq) b1 b2 hag
  show Bool.xor (getBit b1 (rowPairFlagIdx n m pr)) (rowCeEff n m i pr b1) = _
  rw [hag (rowPairFlagIdx n m pr) hmem, hce]

theorem row_uniqueness_spec (n m : Nat) :
    TogglesOnly (row_uniqueness n m) (rowFlag n m) (rowUniqEff n m) := by
  have hflag_notin : rowFlag n m ∉ (List.range n).map (rowScratchIdx n m) := by
    intro hmem
    rcases List.mem_map.mp hmem with ⟨i, hi, hEq⟩
    exact lt_nmk4_ne_ancIdx (by unfold rowFlag; omega) hEq.symm
  have hbrOk : ∀ i ∈ List.range n, OkC (rowBracket n m i) := by
    intro i hi
    have hiw := List.mem_range.mp hi
    refine OkC_append (OkC_append
      (OkC_flatMap fun pr hpr => ce_okC (rowCeSep hiw hpr)) ?_)
      (OkC_reverse (OkC_flatMap fun pr hpr => ce_okC (rowCeSep hiw hpr)))
    refine orInto_okC ?_
    intro hmem
    rcases List.mem_map.mp hmem with ⟨pr, hpr, hEq⟩
    rcases mem_pairsList.mp hpr with ⟨h12, h2m⟩
    have hcode := ancIdx_inj hEq.symm
    have := pairCode_lt h12 h2m
    omega
  have hA : OkC ((List.range n).flatMap (rowBracket n m)) := OkC_flatMap hbrOk
  have hAt : AvoidsBit ((List.range n).flatMap (rowBracket n m))
      (rowFlag n m) := by
    refine AvoidsBit_flatMap ?_
    intro i hi
    have hiw := List.mem_range.mp hi
    have hce : AvoidsBit ((pairsList m).flatMap (rowCe n m i)) (rowFlag n m) := by
      refine AvoidsBit_flatMap ?_
      intro pr hpr
      rcases mem_pairsList.mp hpr with ⟨h12, h2m⟩
      have h1m : pr.1 < m := Nat.lt_trans h12 h2m
      refine ce_avoids ?_ ?_ ?_ ?_
      · intro bb hbb
        exact lt_nmk4_ne_ancIdx (by unfold rowFlag; omega)
      · intro bb hbb
        exact dataIdx_ne_of_ge hiw h1m hbb (le_refl _)
      · intro bb hbb
        exact dataIdx_ne_of_ge hiw h2m hbb (le_refl _)
      · exact lt_nmk4_ne_ancIdx (by unfold rowFlag; omega)
    refine AvoidsBit_append (AvoidsBit_append hce ?_) (AvoidsBit_reverse hce)
    refine orInto_avoids (lt_nmk4_ne_ancIdx (by unfold rowFlag; omega)) ?_
    intro hmem
    rcases List.mem_map.mp hmem with ⟨pr, hpr, hEq⟩
    exact lt_nmk4_ne_ancIdx (by unfold rowFlag; omega) hEq.symm
  have hM := orInto_spec hflag_notin
  have hblk2 : ∀ i ∈ List.range n,
      TogglesOnly (rowBracket n m i) (rowScratchIdx n m i) (rowEff n m i) :=
    fun i hi => rowBracket_spec (List.mem_range.mp hi)
  have hdep2 : ∀ i ∈ List.range n,
      DependsOnlyOn (Region n m (bitWidth n m + m * m)) (rowEff n m i) :=
    fun i hi => rowEff_dep (List.mem_range.mp hi)
  have hTP2 : ∀ i ∈ List.range n,
      ¬ Region n m (bitWidth n m + m * m) (rowScratchIdx n m i) := by
    intro i hi
    show ¬ Region n m (bitWidth n m + m * m)
      (ancIdx n m (bitWidth n m + m * m + i))
    exact ancIdx_not_mem_Region (by omega)
  have hinj2 : (List.range n).Pairwise
      fun i j => rowScratchIdx n m i ≠ rowScratchIdx n m j := by
    refine (List.nodup_range n).imp_of_mem ?_
    intro i j hi hj hij hEq
    have := ancIdx_inj hEq
    omega
  have hpass := pass_spec_bits (Region n m (bitWidth n m + m * m))
    hblk2 hdep2 hTP2 hinj2
  have hbr := bracket_spec hA hAt hM
  refine hbr.congr ?_
  intro bits
  show anyOr ((List.range n).map (rowScratchIdx n m))
      (runBits ((List.range n).flatMap (rowBracket n m)) bits)
      = rowUniqEff n m bits
  unfold anyOr rowUniqEff
  rw [list_any_map]
  refine list_any_congr ?_
  intro i hi
  show getBit (runBits ((List.range n).flatMap (rowBracket n m)) bits)
      (rowScratchIdx n m i) = _
  rw [(hpass bits).1 i hi]

theorem colCeSep {n m j : Nat} {pr : Nat × Nat} (hj : j < m)
    (hpr : pr ∈ pairsList n) :
    CeSep (bitWidth n m) (cellBitsF n m pr.1 j) (cellBitsF n m pr.2 j)
      (lowAncF n m) (colPairFlagIdx n m pr) := by
  rcases mem_pairsList.mp hpr with ⟨h12, h2n⟩
  have h1n : pr.1 < n := Nat.lt_trans h12 h2n
  refine ⟨?_, ?_, ?_, ?_, ?_, ?_⟩
  · intro b hb b' hb'
    exact ancIdx_ne_dataIdx h1n hj hb
  · intro b hb b' hb'
    exact ancIdx_ne_dataIdx h2n hj hb
  · intro b hb b' hb' hEq
    exact ancIdx_inj hEq
  · intro b hb
    show ancIdx n m (bitWidth n m + (pr.1 * n + pr.2)) ≠ ancIdx n m b
    exact ancIdx_ne (by omega)
  · intro b hb
    exact ancIdx_ne_dataIdx h1n hj hb
  · intro b hb
    exact ancIdx_ne_dataIdx h2n hj hb

theorem colCeEff_dep {n m j : Nat} {pr : Nat × Nat} (hj : j < m)
    (hpr : pr ∈ pairsList n) :
    DependsOnlyOn (Region n m (bitWidth n m)) (colCeEff n m j pr) := by
  intro b1 b2 hag
  rcases mem_pairsList.mp hpr with ⟨h12, h2n⟩
  have h1n : pr.1 < n := Nat.lt_trans h12 h2n
  unfold colCeEff ceEff
  refine list_all_congr ?_
  intro bb hbb
  have hbbw := List.mem_range.mp hbb
  rw [hag (lowAncF n m bb) (ancIdx_mem_Region hbbw),
    hag (cellBitsF n m pr.1 j bb) (dataIdx_mem_Region h1n hj hbbw),
    hag (cellBitsF n m pr.2 j bb) (dataIdx_mem_Region h2n hj hbbw)]

theorem colPair_pass_bits {n m j : Nat} (hj : j < m) (b : Nat) :
    (∀ pr ∈ pairsList n,
        getBit (runBits ((pairsList n).flatMap (colCe n m j)) b)
            (colPairFlagIdx n m pr)
          = Bool.xor (getBit b (colPairFlagIdx n m pr)) (colCeEff n m j pr b)) ∧
    (∀ q, (∀ pr ∈ pairsList n, q ≠ colPairFlagIdx n m pr) →
        getBit (runBits ((pairsList n).flatMap (colCe n m j)) b) q
          = getBit b q) := by
  refine pass_spec_bits (Region n m (bitWidth n m)) ?_ ?_ ?_ ?_ b
  · intro pr hpr
    exact ce_spec (colCeSep hj hpr)
  · intro pr hpr
    exact colCeEff_dep hj hpr
  · intro pr hpr
    rcases mem_pairsList.mp hpr with ⟨h12, h2n⟩
    show ¬ Region n m (bitWidth n m) (ancIdx n m (bitWidth n m + (pr.1 * n + pr.2)))
    exact ancIdx_not_mem_Region (by omega)
  · refine (pairsList_nodup n).imp_of_mem ?_
    intro pr pr' hpr hpr' hne hEq
    rcases mem_pairsList.mp hpr with ⟨h12, h2n⟩
    rcases mem_pairsList.mp hpr' with ⟨h12', h2n'⟩
    have hcode := ancIdx_inj hEq
    have hpos : pr.1 * n + pr.2 = pr'.1 * n + pr'.2 := by omega
    rcases cellPos_inj h2n h2n' hpos with ⟨hEq1, hEq2⟩
    exact hne (Prod.ext hEq1 hEq2)

theorem colBracket_spec {n m j : Nat} (hj : j < m) :
    TogglesOnly (colBracket n m j) (colScratchIdx n m j) (colEff n m j) := by
  have hscr_notin : colScratchIdx n m j ∉
      (pairsList n).map (colPairFlagIdx n m) := by
    intro hmem
    rcases List.mem_map.mp hmem with ⟨pr, hpr, hEq⟩
    rcases mem_pairsList.mp hpr with ⟨h12, h2n⟩
    have hcode := ancIdx_inj hEq.symm
    have := pairCode_lt h12 h2n
    omega
  have hA : OkC ((pairsList n).flatMap (colCe n m j)) :=
    OkC_flatMap fun pr hpr => ce_okC (colCeSep hj hpr)
  have hAt : AvoidsBit ((pairsList n).flatMap (colCe n m j))
      (colScratchIdx n m j) := by
    refine AvoidsBit_flatMap ?_
    intro pr hpr
    rcases mem_pairsList.mp hpr with ⟨h12, h2n⟩
    have h1n : pr.1 < n := Nat.lt_trans h12 h2n
    refine ce_avoids ?_ ?_ ?_ ?_
    · intro bb hbb
      exact ancIdx_ne (by omega)
    · intro bb hbb
      exact ancIdx_ne_dataIdx h1n hj hbb
    · intro bb hbb
      exact ancIdx_ne_dataIdx h2n hj hbb
    · show ancIdx n m (bitWidth n m + n * n + j) ≠
        ancIdx n m (bitWidth n m + (pr.1 * n + pr.2))
      have := pairCode_lt h12 h2n
      exact ancIdx_ne (by omega)
  have hM := orInto_spec hscr_notin
  have hbr := bracket_spec hA hAt hM
  refine hbr.congr ?_
  intro bits
  show anyOr ((pairsList n).map (colPairFlagIdx n m))
      (runBits ((pairsList n).flatMap (colCe n m j)) bits) = colEff n m j bits
  unfold anyOr colEff
  rw [list_any_map]
  refine list_any_congr ?_
  intro pr hpr
  show getBit (runBits ((pairsList n).flatMap (colCe n m j)) bits)
      (colPairFlagIdx n m pr) = _
  rw [(colPair_pass_bits hj bits).1 pr hpr]

theorem colEff_dep {n m j : Nat} (hj : j < m) :
    DependsOnlyOn (Region n m (bitWidth n m + n * n)) (colEff n m j) := by
  intro b1 b2 hag
  unfold colEff
  refine list_any_congr ?_
  intro pr hpr
  rcases mem_pairsList.mp hpr with ⟨h12, h2n⟩
  have hmem : Region n m (bitWidth n m + n * n)
      (ancIdx n m (bitWidth n m + (pr.1 * n + pr.2))) := by
    have := pairCode_lt h12 h2n
    exact ancIdx_mem_Region (by omega)
  have hce := (colCeEff_dep hj hpr).mono
    (fun q hq => Region.widen (Nat.le_add_right _ _) q hq) b1 b2 hag
  show Bool.xor (getBit b1 (colPairFlagIdx n m pr)) (colCeEff n m j pr b1) = _
  rw [hag (colPairFlagIdx n m pr) hmem, hce]

theorem column_uniqueness_spec (n m : Nat) :
    TogglesOnly (column_uniqueness n m) (colFlag n m) (colUniqEff n m) := by
  have hflag_notin : colFlag n m ∉ (List.range m).map (colScratchIdx n m) := by
    intro hmem
    rcases List.mem_map.mp hmem with ⟨j, hj, hEq⟩
    exact lt_nmk4_ne_ancIdx (by unfold colFlag; omega) hEq.symm
  have hbrOk : ∀ j ∈ List.range m, OkC (colBracket n m j) := by
    intro j hj
    have hjw := List.mem_range.mp hj
    refine OkC_append (OkC_append
      (OkC_flatMap fun pr hpr => ce_okC (colCeSep hjw hpr)) ?_)
      (OkC_reverse (OkC_flatMap fun pr hpr => ce_okC (colCeSep hjw hpr)))
    refine orInto_okC ?_
    intro hmem
    rcases List.mem_map.mp hmem with ⟨pr, hpr, hEq⟩
    rcases mem_pairsList.mp hpr with ⟨h12, h2n⟩
    have hcode := ancIdx_inj hEq.symm
    have := pairCode_lt h12 h2n
    omega
  have hA : OkC ((List.range m).flatMap (colBracket n m)) := OkC_flatMap hbrOk
  have hAt : AvoidsBit ((List.range m).flatMap (colBracket n m))
      (colFlag n m) := by
    refine AvoidsBit_flatMap ?_
    intro j hj
    have hjw := List.mem_range.mp hj
    have hce : AvoidsBit ((pairsList n).flatMap (colCe n m j)) (colFlag n m) := by
      refine AvoidsBit_flatMap ?_
      intro pr hpr
      rcases mem_pairsList.mp hpr with ⟨h12, h2n⟩
      have h1n : pr.1 < n := Nat.lt_trans h12 h2n
      refine ce_avoids ?_ ?_ ?_ ?_
      · intro bb hbb
        exact lt_nmk4_ne_ancIdx (by unfold colFlag; omega)
      · intro bb hbb
        exact dataIdx_ne_of_ge h1n hjw hbb (by unfold colFlag; omega)
      · intro bb hbb
        exact dataIdx_ne_of_ge h2n hjw hbb (by unfold colFlag; omega)
      · exact lt_nmk4_ne_ancIdx (by unfold colFlag; omega)
    refine AvoidsBit_append (AvoidsBit_append hce ?_) (AvoidsBit_reverse hce)
    refine orInto_avoids (lt_nmk4_ne_ancIdx (by unfold colFlag; omega)) ?_
    intro hmem
    rcases List.mem_map.mp hmem with ⟨pr, hpr, hEq⟩
    exact lt_nmk4_ne_ancIdx (by unfold colFlag; omega) hEq.symm
  have hM := orInto_spec hflag_notin
  have hblk2 : ∀ j ∈ List.range m,
      TogglesOnly (colBracket n m j) (colScratchIdx n m j) (colEff n m j) :=
    fun j hj => colBracket_spec (List.mem_range.mp hj)
  have hdep2 : ∀ j ∈ List.range m,
      DependsOnlyOn (Region n m (bitWidth n m + n * n)) (colEff n m j) :=
    fun j hj => colEff_dep (List.mem_range.mp hj)
  have hTP2 : ∀ j ∈ List.range m,
      ¬ Region n m (bitWidth n m + n * n) (colScratchIdx n m j) := by
    intro j hj
    show ¬ Region n m (bitWidth n m + n * n)
      (ancIdx n m (bitWidth n m + n * n + j))
    exact ancIdx_not_mem_Region (by omega)
  have hinj2 : (List.range m).Pairwise
      fun i j => colScratchIdx n m i ≠ colScratchIdx n m j := by
    refine (List.nodup_range m).imp_of_mem ?_
    intro i j hi hj hij hEq
    have := ancIdx_inj hEq
    omega
  have hpass := pass_spec_bits (Region n m (bitWidth n m + n * n))
    hblk2 hdep2 hTP2 hinj2
  have hbr := bracket_spec hA hAt hM
  refine hbr.congr ?_
  intro bits
  show anyOr ((List.range m).map (colScratchIdx n m))
      (runBits ((List.range m).flatMap (colBracket n m)) bits)
      = colUniqEff n m bits
  unfold anyOr colUniqEff
  rw [list_any_map]
  refine list_any_congr ?_
  intro j hj
  show getBit (runBits ((List.range m).flatMap (colBracket n m)) bits)
      (colScratchIdx n m j) = _
  rw [(hpass bits).1 j hj]

theorem prep_spec (n m c : Nat) (bits : Nat) :
    (∀ b < bitWidth n m,
        getBit (runBits (prepare_constant n m c) bits) (ancIdx n m b)
          = Bool.xor (getBit bits (ancIdx n m b)) (c.testBit b)) ∧
    (∀ q, (∀ b < bitWidth n m, q ≠ ancIdx n m b) →
        getBit (runBits (prepare_constant n m c) bits) q = getBit bits q) := by
  have hblk : ∀ b ∈ (List.range (bitWidth n m)).filter (fun b => c.testBit b),
      TogglesOnly [Gate.mcx [] (ancIdx n m b)] (ancIdx n m b)
        (fun _ => true) := by
    intro b hb
    have h1 : TogglesOnly [Gate.mcx [] (ancIdx n m b)] (ancIdx n m b)
        ((Gate.mcx [] (ancIdx n m b)).gcond) := togglesOnly_single rfl trivial
    exact h1.congr fun bits => rfl
  have hdep : ∀ b ∈ (List.range (bitWidth n m)).filter (fun b => c.testBit b),
      DependsOnlyOn (fun _ => False) (fun (_ : Nat) => true) :=
    fun b hb b1 b2 hag => rfl
  have hTP : ∀ b ∈ (List.range (bitWidth n m)).filter (fun b => c.testBit b),
      ¬ False := fun b hb h => h
  have hinj : ((List.range (bitWidth n m)).filter
      (fun b => c.testBit b)).Pairwise
        fun b b' => ancIdx n m b ≠ ancIdx n m b' := by
    refine ((List.nodup_range (bitWidth n m)).filter _).imp_of_mem ?_
    intro b b' hb hb' hne
    exact ancIdx_ne hne
  have hp := pass_spec_bits (fun _ => False) hblk hdep hTP hinj bits
  have hflat : ((List.range (bitWidth n m)).filter
      (fun b => c.testBit b)).flatMap (fun b => [Gate.mcx [] (ancIdx n m b)]) =
      prepare_constant n m c := by
    unfold prepare_constant
    induction ((List.range (bitWidth n m)).filter fun b => c.testBit b) with
    | nil => rfl
    | cons x l ih => simp only [List.flatMap_cons, List.map_cons, ih]; rfl
  rw [hflat] at hp
  constructor
  · intro b hb
    by_cases hcb : c.testBit b
    · have hmem : b ∈ (List.range (bitWidth n m)).filter
          (fun b => c.testBit b) :=
        List.mem_filter.mpr ⟨List.mem_range.mpr hb, by rw [hcb]⟩
      rw [hp.1 b hmem, hcb]
    · have hres := hp.2 (ancIdx n m b) ?_
      · rw [hres]
        have hcb' : c.testBit b = false := Bool.eq_false_iff.mpr hcb
        rw [hcb', Bool.xor_false]
      · intro b' hb'
        have hcb' := (List.mem_filter.mp hb').2
        refine ancIdx_ne ?_
        intro hEq
        subst hEq
        exact hcb (by rw [hcb'])
  · intro q hq
    refine hp.2 q ?_
    intro b hb
    have hbk := List.mem_range.mp (List.mem_filter.mp hb).1
    exact hq b hbk

theorem cellCmpEff_dep {n m : Nat} {p : Nat × Nat} (hp : p ∈ cellsList n m) :
    DependsOnlyOn (Region n m (bitWidth n m)) (cellCmpEff n m p) := by
  intro b1 b2 hag
  rcases mem_cellsList.mp hp with ⟨h1, h2⟩
  unfold cellCmpEff
  have hv1 : valOf b1 (cellBitsF n m p.1 p.2) (bitWidth n m) =
      valOf b2 (cellBitsF n m p.1 p.2) (bitWidth n m) :=
    valOf_congr fun i hi => hag (cellBitsF n m p.1 p.2 i)
      (dataIdx_mem_Region h1 h2 hi)
  have hv2 : valOf b1 (lowAncF n m) (bitWidth n m) =
      valOf b2 (lowAncF n m) (bitWidth n m) :=
    valOf_congr fun i hi => hag (lowAncF n m i) (ancIdx_mem_Region hi)
  rw [hv1, hv2]

theorem cellCmp_pass_bits (n m : Nat) (b : Nat) :
    (∀ p ∈ cellsList n m,
        getBit (runBits ((cellsList n m).flatMap (cellCmp n m)) b)
            (cellFlagIdx n m p.1 p.2)
          = Bool.xor (getBit b (cellFlagIdx n m p.1 p.2)) (cellCmpEff n m p b)) ∧
    (∀ q, (∀ p ∈ cellsList n m, q ≠ cellFlagIdx n m p.1 p.2) →
        getBit (runBits ((cellsList n m).flatMap (cellCmp n m)) b) q
          = getBit b q) := by
  refine pass_spec_bits (Region n m (bitWidth n m)) ?_ ?_ ?_ ?_ b
  · intro p hp
    have h1 : TogglesOnly (cellCmp n m p) (cellFlagIdx n m p.1 p.2)
        ((Gate.cmpGE (bitWidth n m) (cellBitsF n m p.1 p.2) (lowAncF n m)
          (cellFlagIdx n m p.1 p.2)).gcond) := togglesOnly_single rfl trivial
    exact h1.congr fun bits => rfl
  · intro p hp
    exact cellCmpEff_dep hp
  · intro p hp
    show ¬ Region n m (bitWidth n m)
      (ancIdx n m (bitWidth n m + (p.1 * m + p.2)))
    exact ancIdx_not_mem_Region (by omega)
  · refine (cellsList_nodup n m).imp_of_mem ?_
    intro p p' hp hp' hne hEq
    rcases mem_cellsList.mp hp with ⟨h1, h2⟩
    rcases mem_cellsList.mp hp' with ⟨h1', h2'⟩
    have hcode := ancIdx_inj hEq
    have hpos : p.1 * m + p.2 = p'.1 * m + p'.2 := by omega
    rcases cellPos_inj h2 h2' hpos with ⟨hEq1, hEq2⟩
    exact hne (Prod.ext hEq1 hEq2)

theorem cell_validity_spec (n m : Nat) :
    TogglesOnly (cell_validity n m) (cellValidFlag n m) (cvEff n m) := by
  have hprepOk : OkC (prepare_constant n m (2 ^ bitWidth n m - max n m)) := by
    intro g hg
    rcases List.mem_map.mp hg with ⟨b, hb, rfl⟩
    exact ⟨fun t' ht' hmem => absurd hmem (List.not_mem_nil _), trivial⟩
  have hcmpOk : OkC ((cellsList n m).flatMap (cellCmp n m)) := by
    refine OkC_flatMap ?_
    intro p hp
    rcases mem_cellsList.mp hp with ⟨h1, h2⟩
    intro g hg
    rcases List.mem_cons.mp hg with rfl | hg
    · refine ⟨?_, trivial⟩
      intro t' ht' hmem
      have htt : cellFlagIdx n m p.1 p.2 = t' := Option.some.inj ht'
      subst htt
      rcases List.mem_append.mp hmem with hmem | hmem
      · rcases List.mem_map.mp hmem with ⟨bb, hbb, hbEq⟩
        exact ancIdx_ne_dataIdx h1 h2 (List.mem_range.mp hbb) hbEq.symm
      · rcases List.mem_map.mp hmem with ⟨bb, hbb, hbEq⟩
        have hbbk := List.mem_range.mp hbb
        have := ancIdx_inj hbEq
        omega
    · exact absurd hg (List.not_mem_nil _)
  have hA : OkC (prepare_constant n m (2 ^ bitWidth n m - max n m) ++
      (cellsList n m).flatMap (cellCmp n m)) := OkC_append hprepOk hcmpOk
  have hAt : AvoidsBit (prepare_constant n m (2 ^ bitWidth n m - max n m) ++
      (cellsList n m).flatMap (cellCmp n m)) (cellValidFlag n m) := by
    refine AvoidsBit_append ?_ ?_
    · intro g hg
      rcases List.mem_map.mp hg with ⟨b, hb, rfl⟩
      refine ⟨?_, fun hmem => absurd hmem (List.not_mem_nil _)⟩
      intro ht'
      exact lt_nmk4_ne_ancIdx (by unfold cellValidFlag; omega)
        (Option.some.inj ht').symm
    · refine AvoidsBit_flatMap ?_
      intro p hp
      rcases mem_cellsList.mp hp with ⟨h1, h2⟩
      intro g hg
      rcases List.mem_cons.mp hg with rfl | hg
      · refine ⟨?_, ?_⟩
        · intro ht'
          exact lt_nmk4_ne_ancIdx (by unfold cellValidFlag; omega)
            (Option.some.inj ht').symm
        · intro hmem
          rcases List.mem_append.mp hmem with hmem | hmem
          · rcases List.mem_map.mp hmem with ⟨bb, hbb, hbEq⟩
            exact dataIdx_ne_of_ge h1 h2 (List.mem_range.mp hbb)
              (by unfold cellValidFlag; omega) hbEq.symm
          · rcases List.mem_map.mp hmem with ⟨bb, hbb, hbEq⟩
            exact lt_nmk4_ne_ancIdx (by unfold cellValidFlag; omega) hbEq.symm
      · exact absurd hg (List.not_mem_nil _)
  have hflag_notin : cellValidFlag n m ∉
      (cellsList n m).map fun p => cellFlagIdx n m p.1 p.2 := by
    intro hmem
    rcases List.mem_map.mp hmem with ⟨p, hp, hEq⟩
    exact lt_nmk4_ne_ancIdx (by unfold cellValidFlag; omega) hEq.symm
  have hM := orInto_spec hflag_notin
  have hbr := bracket_spec hA hAt hM
  refine hbr.congr ?_
  intro bits
  show anyOr ((cellsList n m).map fun p => cellFlagIdx n m p.1 p.2)
      (runBits (prepare_constant n m (2 ^ bitWidth n m - max n m) ++
        (cellsList n m).flatMap (cellCmp n m)) bits) = cvEff n m bits
  unfold anyOr cvEff
  rw [list_any_map, runBits_append]
  refine list_any_congr ?_
  intro p hp
  show getBit (runBits ((cellsList n m).flatMap (cellCmp n m))
      (runBits (prepare_constant n m (2 ^ bitWidth n m - max n m)) bits))
      (cellFlagIdx n m p.1 p.2) = _
  rw [(cellCmp_pass_bits n m _).1 p hp]
  have hfr : getBit (runBits (prepare_constant n m
      (2 ^ bitWidth n m - max n m)) bits) (cellFlagIdx n m p.1 p.2)
      = getBit bits (cellFlagIdx n m p.1 p.2) := by
    refine (prep_spec n m _ bits).2 _ ?_
    intro b hb
    exact ancIdx_ne (by omega)
  rw [hfr]

theorem region_ne_flags {n m c q : Nat} (hq : Region n m c q) :
    q ≠ rowFlag n m ∧ q ≠ colFlag n m ∧ q ≠ cellValidFlag n m ∧
      q ≠ globalFlag n m := by
  unfold Region at hq
  unfold rowFlag colFlag cellValidFlag globalFlag
  omega

/-- `cvEff` reads only the data region and the ancillas it uses. -/
theorem cvEff_dep (n m : Nat) :
    DependsOnlyOn (Region n m (bitWidth n m + n * m)) (cvEff n m) := by
  intro b1 b2 hag
  unfold cvEff
  refine list_any_congr ?_
  intro p hp
  rcases mem_cellsList.mp hp with ⟨h1, h2⟩
  have hmem : Region n m (bitWidth n m + n * m)
      (ancIdx n m (bitWidth n m + (p.1 * m + p.2))) := by
    have := cellPos_lt h1 h2
    exact ancIdx_mem_Region (by omega)
  have hagP : ∀ q, Region n m (bitWidth n m) q →
      getBit (runBits (prepare_constant n m (2 ^ bitWidth n m - max n m)) b1) q
        = getBit (runBits (prepare_constant n m
            (2 ^ bitWidth n m - max n m)) b2) q := by
    intro q hq
    rcases hq with hq | hq
    · have hne : ∀ b < bitWidth n m, q ≠ ancIdx n m b := by
        intro b hb
        exact lt_nmk4_ne_ancIdx (by omega)
      rw [(prep_spec n m _ b1).2 q hne, (prep_spec n m _ b2).2 q hne]
      exact hag q (Or.inl hq)
    · have hqa : q = ancIdx n m (q - (nmk n m + 4)) := by
        unfold ancIdx
        omega
      have hb : q - (nmk n m + 4) < bitWidth n m := by omega
      rw [hqa, (prep_spec n m _ b1).1 _ hb, (prep_spec n m _ b2).1 _ hb,
        hag _ (by rw [← hqa]; exact Or.inr (by omega))]
  have hce := cellCmpEff_dep hp _ _ hagP
  show Bool.xor (getBit b1 (cellFlagIdx n m p.1 p.2)) _ = _
  rw [hag (cellFlagIdx n m p.1 p.2) hmem, hce]

/-- `rowUniqEff` reads only the data region and the ancillas it uses. -/
theorem rowUniqEff_dep (n m : Nat) :
    DependsOnlyOn (Region n m (bitWidth n m + m * m + n)) (rowUniqEff n m) := by
  intro b1 b2 hag
  unfold rowUniqEff
  refine list_any_congr ?_
  intro i hi
  have hiw := List.mem_range.mp hi
  have hmem : Region n m (bitWidth n m + m * m + n)
      (ancIdx n m (bitWidth n m + m * m + i)) := ancIdx_mem_Region (by omega)
  have hce := (rowEff_dep hiw).mono
    (fun q hq => Region.widen (Nat.le_add_right _ _) q hq) b1 b2 hag
  show Bool.xor (getBit b1 (rowScratchIdx n m i)) (rowEff n m i b1) = _
  rw [hag (rowScratchIdx n m i) hmem, hce]

/-- `colUniqEff` reads only the data region and the ancillas it uses. -/
theorem colUniqEff_dep (n m : Nat) :
    DependsOnlyOn (Region n m (bitWidth n m + n * n + m)) (colUniqEff n m) := by
  intro b1 b2 hag
  unfold colUniqEff
  refine list_any_congr ?_
  intro j hj
  have hjw := List.mem_range.mp hj
  have hmem : Region n m (bitWidth n m + n * n + m)
      (ancIdx n m (bitWidth n m + n * n + j)) := ancIdx_mem_Region (by omega)
  have hce := (colEff_dep hjw).mono
    (fun q hq => Region.widen (Nat.le_add_right _ _) q hq) b1 b2 hag
  show Bool.xor (getBit b1 (colScratchIdx n m j)) (colEff n m j b1) = _
  rw [hag (colScratchIdx n m j) hmem, hce]

theorem prep_okC (n m c : Nat) : OkC (prepare_constant n m c) := by
  intro g hg
  rcases List.mem_map.mp hg with ⟨b, hb, rfl⟩
  exact ⟨fun t' ht' hmem => absurd hmem (List.not_mem_nil _), trivial⟩

theorem cellCmp_okC (n m : Nat) : OkC ((cellsList n m).flatMap (cellCmp n m)) := by
  refine OkC_flatMap ?_
  intro p hp
  rcases mem_cellsList.mp hp with ⟨h1, h2⟩
  intro g hg
  rcases List.mem_cons.mp hg with rfl | hg
  · refine ⟨?_, trivial⟩
    intro t' ht' hmem
    have htt : cellFlagIdx n m p.1 p.2 = t' := Option.some.inj ht'
    subst htt
    rcases List.mem_append.mp hmem with hmem | hmem
    · rcases List.mem_map.mp hmem with ⟨bb, hbb, hbEq⟩
      exact ancIdx_ne_dataIdx h1 h2 (List.mem_range.mp hbb) hbEq.symm
    · rcases List.mem_map.mp hmem with ⟨bb, hbb, hbEq⟩
      have hbbk := List.mem_range.mp hbb
      have := ancIdx_inj hbEq
      omega
  · exact absurd hg (List.not_mem_nil _)

theorem cell_validity_okC (n m : Nat) : OkC (cell_validity n m) := by
  have hA : OkC (prepare_constant n m (2 ^ bitWidth n m - max n m) ++
      (cellsList n m).flatMap (cellCmp n m)) :=
    OkC_append (prep_okC n m _) (cellCmp_okC n m)
  refine OkC_append (OkC_append hA ?_) (OkC_reverse hA)
  refine orInto_okC ?_
  intro hmem
  rcases List.mem_map.mp hmem with ⟨p, hp, hEq⟩
  exact lt_nmk4_ne_ancIdx (by unfold cellValidFlag; omega) hEq.symm

theorem rowBracket_okC {n m i : Nat} (hi : i < n) : OkC (rowBracket n m i) := by
  refine OkC_append (OkC_append
    (OkC_flatMap fun pr hpr => ce_okC (rowCeSep hi hpr)) ?_)
    (OkC_reverse (OkC_flatMap fun pr hpr => ce_okC (rowCeSep hi hpr)))
  refine orInto_okC ?_
  intro hmem
  rcases List.mem_map.mp hmem with ⟨pr, hpr, hEq⟩
  rcases mem_pairsList.mp hpr with ⟨h12, h2m⟩
  have hcode := ancIdx_inj hEq.symm
  have := pairCode_lt h12 h2m
  omega

theorem row_uniqueness_okC (n m : Nat) : OkC (row_uniqueness n m) := by
  have hA : OkC ((List.range n).flatMap (rowBracket n m)) :=
    OkC_flatMap fun i hi => rowBracket_okC (List.mem_range.mp hi)
  refine OkC_append (OkC_append hA ?_) (OkC_reverse hA)
  refine orInto_okC ?_
  intro hmem
  rcases List.mem_map.mp hmem with ⟨i, hi, hEq⟩
  exact lt_nmk4_ne_ancIdx (by unfold rowFlag; omega) hEq.symm

theorem colBracket_okC {n m j : Nat} (hj : j < m) : OkC (colBracket n m j) := by
  refine OkC_append (OkC_append
    (OkC_flatMap fun pr hpr => ce_okC (colCeSep hj hpr)) ?_)
    (OkC_reverse (OkC_flatMap fun pr hpr => ce_okC (colCeSep hj hpr)))
  refine orInto_okC ?_
  intro hmem
  rcases List.mem_map.mp hmem with ⟨pr, hpr, hEq⟩
  rcases mem_pairsList.mp hpr with ⟨h12, h2n⟩
  have hcode := ancIdx_inj hEq.symm
  have := pairCode_lt h12 h2n
  omega

theorem column_uniqueness_okC (n m : Nat) : OkC (column_uniqueness n m) := by
  have hA : OkC ((List.range m).flatMap (colBracket n m)) :=
    OkC_flatMap fun j hj => colBracket_okC (List.mem_range.mp hj)
  refine OkC_append (OkC_append hA ?_) (OkC_reverse hA)
  refine orInto_okC ?_
  intro hmem
  rcases List.mem_map.mp hmem with ⟨j, hj, hEq⟩
  exact lt_nmk4_ne_ancIdx (by unfold colFlag; omega) hEq.symm

/-- The phase-flip condition of the oracle evaluated on the entry state: all
three constraint flags end in the all-valid (all-zero) pattern. -/
def oracleMarkEff (n m : Nat) (bits : Nat) : Bool :=
  (!(Bool.xor (getBit bits (rowFlag n m)) (rowUniqEff n m bits))) &&
    ((!(Bool.xor (getBit bits (colFlag n m)) (colUniqEff n m bits))) &&
      ((!(Bool.xor (getBit bits (cellValidFlag n m)) (cvEff n m bits))) &&
        true))

/-- The oracle restores every register bit and flips the sign exactly when the
three computed constraint flags show the all-valid pattern. -/
theorem oracle_spec (n m : Nat) (s : QState) :
    run (oracle n m) s = ⟨s.bits, Bool.xor s.sign (oracleMarkEff n m s.bits)⟩ := by
  have hA : OkC (cell_validity n m ++ row_uniqueness n m ++
      column_uniqueness n m) :=
    OkC_append (OkC_append (cell_validity_okC n m) (row_uniqueness_okC n m))
      (column_uniqueness_okC n m)
  have hor := bracket_phase [rowFlag n m, colFlag n m, cellValidFlag n m] hA s
  unfold oracle
  rw [hor]
  have hchain : runBits (cell_validity n m ++ row_uniqueness n m ++
      column_uniqueness n m) s.bits =
      flipWhen (colUniqEff n m s.bits) (colFlag n m)
        (flipWhen (rowUniqEff n m s.bits) (rowFlag n m)
          (flipWhen (cvEff n m s.bits) (cellValidFlag n m) s.bits)) := by
    rw [runBits_append, runBits_append,
      (cell_validity_spec n m).bits s.bits]
    set b1 := flipWhen (cvEff n m s.bits) (cellValidFlag n m) s.bits with hb1
    have hag1 : ∀ q, Region n m (bitWidth n m + m * m + n) q →
        getBit b1 q = getBit s.bits q := by
      intro q hq
      rw [hb1, getBit_flipWhen, if_neg (region_ne_flags hq).2.2.1]
    rw [(row_uniqueness_spec n m).bits b1, rowUniqEff_dep n m b1 s.bits hag1]
    set b2 := flipWhen (rowUniqEff n m s.bits) (rowFlag n m) b1 with hb2
    have hag2 : ∀ q, Region n m (bitWidth n m + n * n + m) q →
        getBit b2 q = getBit s.bits q := by
      intro q hq
      rw [hb2, getBit_flipWhen, if_neg (region_ne_flags hq).1, hb1,
        getBit_flipWhen, if_neg (region_ne_flags hq).2.2.1]
    rw [(column_uniqueness_spec n m).bits b2, colUniqEff_dep n m b2 s.bits hag2]
  rw [hchain]
  have hflags : rowFlag n m ≠ colFlag n m ∧
      cellValidFlag n m ≠ colFlag n m ∧ cellValidFlag n m ≠ rowFlag n m := by
    unfold rowFlag colFlag cellValidFlag
    omega
  have hrf : getBit (flipWhen (colUniqEff n m s.bits) (colFlag n m)
      (flipWhen (rowUniqEff n m s.bits) (rowFlag n m)
        (flipWhen (cvEff n m s.bits) (cellValidFlag n m) s.bits)))
      (rowFlag n m)
      = Bool.xor (getBit s.bits (rowFlag n m)) (rowUniqEff n m s.bits) := by
    rw [getBit_flipWhen, if_neg hflags.1, getBit_flipWhen, if_pos rfl,
      getBit_flipWhen, if_neg (fun h => hflags.2.2 h.symm)]
  have hcf : getBit (flipWhen (colUniqEff n m s.bits) (colFlag n m)
      (flipWhen (rowUniqEff n m s.bits) (rowFlag n m)
        (flipWhen (cvEff n m s.bits) (cellValidFlag n m) s.bits)))
      (colFlag n m)
      = Bool.xor (getBit s.bits (colFlag n m)) (colUniqEff n m s.bits) := by
    rw [getBit_flipWhen, if_pos rfl, getBit_flipWhen,
      if_neg (fun h => hflags.1 h.symm), getBit_flipWhen,
      if_neg (fun h => hflags.2.1 h.symm)]
  have hcvf : getBit (flipWhen (colUniqEff n m s.bits) (colFlag n m)
      (flipWhen (rowUniqEff n m s.bits) (rowFlag n m)
        (flipWhen (cvEff n m s.bits) (cellValidFlag n m) s.bits)))
      (cellValidFlag n m)
      = Bool.xor (getBit s.bits (cellValidFlag n m)) (cvEff n m s.bits) := by
    rw [getBit_flipWhen, if_neg hflags.2.1, getBit_flipWhen,
      if_neg hflags.2.2, getBit_flipWhen, if_pos rfl]
  show QState.mk _ _ = QState.mk _ _
  have hcond : (Gate.mcz0 [rowFlag n m, colFlag n m,
      cellValidFlag n m]).gcond
      (flipWhen (colUniqEff n m s.bits) (colFlag n m)
        (flipWhen (rowUniqEff n m s.bits) (rowFlag n m)
          (flipWhen (cvEff n m s.bits) (cellValidFlag n m) s.bits)))
      = oracleMarkEff n m s.bits := by
    show List.all _ _ = _
    rw [List.all_cons, List.all_cons, List.all_cons, List.all_nil]
    rw [hrf, hcf, hcvf]
    rfl
  rw [hcond]

theorem nmk_le_ancIdx (n m t : Nat) : nmk n m ≤ ancIdx n m t := by
  unfold ancIdx
  omega

theorem clean_getBit {n m bits q : Nat} (hb : bits < 2 ^ nmk n m)
    (hq : nmk n m ≤ q) : getBit bits q = false := by
  unfold getBit
  refine Nat.testBit_lt_two_pow ?_
  calc bits < 2 ^ nmk n m := hb
    _ ≤ 2 ^ q := Nat.pow_le_pow_right (by norm_num) hq

theorem clean_cellFlag {n m bits : Nat} (hb : bits < 2 ^ nmk n m)
    (i j : Nat) : getBit bits (cellFlagIdx n m i j) = false :=
  clean_getBit hb (nmk_le_ancIdx n m _)

theorem clean_rowPairFlag {n m bits : Nat} (hb : bits < 2 ^ nmk n m)
    (pr : Nat × Nat) : getBit bits (rowPairFlagIdx n m pr) = false :=
  clean_getBit hb (nmk_le_ancIdx n m _)

theorem clean_colPairFlag {n m bits : Nat} (hb : bits < 2 ^ nmk n m)
    (pr : Nat × Nat) : getBit bits (colPairFlagIdx n m pr) = false :=
  clean_getBit hb (nmk_le_ancIdx n m _)

theorem clean_rowScratch {n m bits : Nat} (hb : bits < 2 ^ nmk n m)
    (i : Nat) : getBit bits (rowScratchIdx n m i) = false :=
  clean_getBit hb (nmk_le_ancIdx n m _)

theorem clean_colScratch {n m bits : Nat} (hb : bits < 2 ^ nmk n m)
    (j : Nat) : getBit bits (colScratchIdx n m j) = false :=
  clean_getBit hb (nmk_le_ancIdx n m _)

theorem bool_xnor_true (x y : Bool) : (!(Bool.xor x y)) = true ↔ x = y := by
  cases x <;> cases y <;> simp

/-- Some row of the decoded assignment holds a duplicated value. -/
def HasRowDup (bits n m : Nat) : Prop :=
  ∃ i < n, ∃ j2 < m, ∃ j1 < j2, gridVal bits n m i j1 = gridVal bits n m i j2

/-- Some column of the decoded assignment holds a duplicated value. -/
def HasColDup (bits n m : Nat) : Prop :=
  ∃ j < m, ∃ i2 < n, ∃ i1 < i2, gridVal bits n m i1 j = gridVal bits n m i2 j

/-- Some cell of the decoded assignment encodes a value outside the symbol
range `0 .. max n m - 1`. -/
def HasCellOutOfRange (bits n m : Nat) : Prop :=
  ∃ i < n, ∃ j < m, max n m ≤ gridVal bits n m i j

/-- The decoded assignment is a valid Latin-square completion: every cell in
range, no duplicate in any row, no duplicate in any column. -/
def ValidCompletion (bits n m : Nat) : Prop :=
  ¬ HasCellOutOfRange bits n m ∧ ¬ HasRowDup bits n m ∧ ¬ HasColDup bits n m

instance decHasRowDup (bits n m : Nat) : Decidable (HasRowDup bits n m) := by
  unfold HasRowDup
  exact inferInstance

instance decHasColDup (bits n m : Nat) : Decidable (HasColDup bits n m) := by
  unfold HasColDup
  exact inferInstance

instance decHasCellOutOfRange (bits n m : Nat) :
    Decidable (HasCellOutOfRange bits n m) := by
  unfold HasCellOutOfRange
  exact inferInstance

instance decValidCompletion (bits n m : Nat) :
    Decidable (ValidCompletion bits n m) := by
  unfold ValidCompletion
  exact inferInstance

theorem exists_mem_pairsList_iff {c : Nat} {P : Nat × Nat → Prop} :
    (∃ pr ∈ pairsList c, P pr) ↔ ∃ j2 < c, ∃ j1 < j2, P (j1, j2) := by
  constructor
  · rintro ⟨pr, hpr, hP⟩
    rcases mem_pairsList.mp hpr with ⟨h12, h2c⟩
    refine ⟨pr.2, h2c, pr.1, h12, ?_⟩
    cases pr
    exact hP
  · rintro ⟨j2, h2c, j1, h12, hP⟩
    exact ⟨(j1, j2), mem_pairsList.mpr ⟨h12, h2c⟩, hP⟩

theorem exists_mem_cellsList_iff {n m : Nat} {P : Nat × Nat → Prop} :
    (∃ p ∈ cellsList n m, P p) ↔ ∃ i < n, ∃ j < m, P (i, j) := by
  constructor
  · rintro ⟨p, hp, hP⟩
    rcases mem_cellsList.mp hp with ⟨h1, h2⟩
    refine ⟨p.1, h1, p.2, h2, ?_⟩
    cases p
    exact hP
  · rintro ⟨i, h1, j, h2, hP⟩
    exact ⟨(i, j), mem_cellsList.mpr ⟨h1, h2⟩, hP⟩

theorem rowCeEff_clean {n m i : Nat} {pr : Nat × Nat} {bits : Nat}
    (hb : bits < 2 ^ nmk n m) :
    rowCeEff n m i pr bits = true ↔
      gridVal bits n m i pr.1 = gridVal bits n m i pr.2 := by
  have helem : ∀ bb, bb < bitWidth n m →
      ((Bool.xor (getBit bits (lowAncF n m bb))
        (!(Bool.xor (getBit bits (cellBitsF n m i pr.1 bb))
          (getBit bits (cellBitsF n m i pr.2 bb))))) = true
        ↔ getBit bits (cellBitsF n m i pr.1 bb)
            = getBit bits (cellBitsF n m i pr.2 bb)) := by
    intro bb hbb
    have hclean : getBit bits (lowAncF n m bb) = false :=
      clean_getBit hb (nmk_le_ancIdx n m bb)
    rw [hclean, Bool.false_xor]
    exact bool_xnor_true _ _
  unfold rowCeEff ceEff
  rw [List.all_eq_true]
  constructor
  · intro h
    refine valOf_inj.mpr fun bb hbb => (helem bb hbb).mp ?_
    exact h bb (List.mem_range.mpr hbb)
  · intro h bb hbbmem
    have hbb := List.mem_range.mp hbbmem
    exact (helem bb hbb).mpr (valOf_inj.mp h bb hbb)

theorem rowEff_clean {n m i : Nat} {bits : Nat} (hb : bits < 2 ^ nmk n m) :
    rowEff n m i bits = true ↔
      ∃ j2 < m, ∃ j1 < j2, gridVal bits n m i j1 = gridVal bits n m i j2 := by
  unfold rowEff
  rw [List.any_eq_true]
  rw [show (∃ pr ∈ pairsList m,
      (Bool.xor (getBit bits (rowPairFlagIdx n m pr))
        (rowCeEff n m i pr bits)) = true) ↔
      (∃ pr ∈ pairsList m, rowCeEff n m i pr bits = true) from ?_]
  · rw [exists_mem_pairsList_iff]
    constructor
    · rintro ⟨j2, h2, j1, h1, hP⟩
      exact ⟨j2, h2, j1, h1, (rowCeEff_clean hb).mp hP⟩
    · rintro ⟨j2, h2, j1, h1, hP⟩
      exact ⟨j2, h2, j1, h1, (rowCeEff_clean hb).mpr hP⟩
  · constructor
    · rintro ⟨pr, hpr, hP⟩
      refine ⟨pr, hpr, ?_⟩
      rwa [clean_rowPairFlag hb pr, Bool.false_xor] at hP
    · rintro ⟨pr, hpr, hP⟩
      refine ⟨pr, hpr, ?_⟩
      rwa [clean_rowPairFlag hb pr, Bool.false_xor]

theorem rowUniqEff_clean {n m : Nat} {bits : Nat} (hb : bits < 2 ^ nmk n m) :
    rowUniqEff n m bits = true ↔ HasRowDup bits n m := by
  unfold rowUniqEff HasRowDup
  rw [List.any_eq_true]
  constructor
  · rintro ⟨i, hi, hP⟩
    rw [clean_rowScratch hb i, Bool.false_xor] at hP
    rcases (rowEff_clean hb).mp hP with ⟨j2, h2, j1, h1, hEq⟩
    exact ⟨i, List.mem_range.mp hi, j2, h2, j1, h1, hEq⟩
  · rintro ⟨i, hi, j2, h2, j1, h1, hEq⟩
    refine ⟨i, List.mem_range.mpr hi, ?_⟩
    rw [clean_rowScratch hb i, Bool.false_xor]
    exact (rowEff_clean hb).mpr ⟨j2, h2, j1, h1, hEq⟩

theorem colCeEff_clean {n m j : Nat} {pr : Nat × Nat} {bits : Nat}
    (hb : bits < 2 ^ nmk n m) :
    colCeEff n m j pr bits = true ↔
      gridVal bits n m pr.1 j = gridVal bits n m pr.2 j := by
  have helem : ∀ bb, bb < bitWidth n m →
      ((Bool.xor (getBit bits (lowAncF n m bb))
        (!(Bool.xor (getBit bits (cellBitsF n m pr.1 j bb))
          (getBit bits (cellBitsF n m pr.2 j bb))))) = true
        ↔ getBit bits (cellBitsF n m pr.1 j bb)
            = getBit bits (cellBitsF n m pr.2 j bb)) := by
    intro bb hbb
    have hclean : getBit bits (lowAncF n m bb) = false :=
      clean_getBit hb (nmk_le_ancIdx n m bb)
    rw [hclean, Bool.false_xor]
    exact bool_xnor_true _ _
  unfold colCeEff ceEff
  rw [List.all_eq_true]
  constructor
  · intro h
    refine valOf_inj.mpr fun bb hbb => (helem bb hbb).mp ?_
    exact h bb (List.mem_range.mpr hbb)
  · intro h bb hbbmem
    have hbb := List.mem_range.mp hbbmem
    exact (helem bb hbb).mpr (valOf_inj.mp h bb hbb)

theorem colEff_clean {n m j : Nat} {bits : Nat} (hb : bits < 2 ^ nmk n m) :
    colEff n m j bits = true ↔
      ∃ i2 < n, ∃ i1 < i2, gridVal bits n m i1 j = gridVal bits n m i2 j := by
  unfold colEff
  rw [List.any_eq_true]
  rw [show (∃ pr ∈ pairsList n,
      (Bool.xor (getBit bits (colPairFlagIdx n m pr))
        (colCeEff n m j pr bits)) = true) ↔
      (∃ pr ∈ pairsList n, colCeEff n m j pr bits = true) from ?_]
  · rw [exists_mem_pairsList_iff]
    constructor
    · rintro ⟨i2, h2, i1, h1, hP⟩
      exact ⟨i2, h2, i1, h1, (colCeEff_clean hb).mp hP⟩
    · rintro ⟨i2, h2, i1, h1, hP⟩
      exact ⟨i2, h2, i1, h1, (colCeEff_clean hb).mpr hP⟩
  · constructor
    · rintro ⟨pr, hpr, hP⟩
      refine ⟨pr, hpr, ?_⟩
      rwa [clean_colPairFlag hb pr, Bool.false_xor] at hP
    · rintro ⟨pr, hpr, hP⟩
      refine ⟨pr, hpr, ?_⟩
      rwa [clean_colPairFlag hb pr, Bool.false_xor]

theorem colUniqEff_clean {n m : Nat} {bits : Nat} (hb : bits < 2 ^ nmk n m) :
    colUniqEff n m bits = true ↔ HasColDup bits n m := by
  unfold colUniqEff HasColDup
  rw [List.any_eq_true]
  constructor
  · rintro ⟨j, hj, hP⟩
    rw [clean_colScratch hb j, Bool.false_xor] at hP
    rcases (colEff_clean hb).mp hP with ⟨i2, h2, i1, h1, hEq⟩
    exact ⟨j, List.mem_range.mp hj, i2, h2, i1, h1, hEq⟩
  · rintro ⟨j, hj, i2, h2, i1, h1, hEq⟩
    refine ⟨j, List.mem_range.mpr hj, ?_⟩
    rw [clean_colScratch hb j, Bool.false_xor]
    exact (colEff_clean hb).mpr ⟨i2, h2, i1, h1, hEq⟩

theorem prep_threshold_value {n m : Nat} {bits : Nat} (hn : 1 ≤ n)
    (hb : bits < 2 ^ nmk n m) :
    valOf (runBits (prepare_constant n m (2 ^ bitWidth n m - max n m)) bits)
      (lowAncF n m) (bitWidth n m) = 2 ^ bitWidth n m - max n m := by
  have hs1 : 1 ≤ max n m := le_trans hn (Nat.le_max_left n m)
  refine valOf_eq_of_testBit ?_ ?_
  · have := smax_le_pow n m
    omega
  · intro b hbk
    rw [show lowAncF n m b = ancIdx n m b from rfl]
    rw [(prep_spec n m _ bits).1 b hbk,
      clean_getBit hb (nmk_le_ancIdx n m b), Bool.false_xor]

theorem cellCmpEff_prep_clean {n m : Nat} {p : Nat × Nat} {bits : Nat}
    (hn : 1 ≤ n) (hp : p ∈ cellsList n m) (hb : bits < 2 ^ nmk n m) :
    cellCmpEff n m p
        (runBits (prepare_constant n m (2 ^ bitWidth n m - max n m)) bits)
      = true ↔ max n m ≤ gridVal bits n m p.1 p.2 := by
  rcases mem_cellsList.mp hp with ⟨h1, h2⟩
  have hdata : valOf (runBits (prepare_constant n m
      (2 ^ bitWidth n m - max n m)) bits) (cellBitsF n m p.1 p.2)
      (bitWidth n m) = gridVal bits n m p.1 p.2 := by
    refine valOf_congr ?_
    intro bb hbb
    refine (prep_spec n m _ bits).2 _ ?_
    intro b' hb'
    exact (ancIdx_ne_dataIdx h1 h2 hbb).symm
  unfold cellCmpEff
  rw [hdata, prep_threshold_value hn hb, decide_eq_true_iff]
  have hsle := smax_le_pow n m
  have hvlt : gridVal bits n m p.1 p.2 < 2 ^ bitWidth n m := valOf_lt _ _ _
  omega

theorem cvEff_clean {n m : Nat} {bits : Nat} (hn : 1 ≤ n)
    (hb : bits < 2 ^ nmk n m) :
    cvEff n m bits = true ↔ HasCellOutOfRange bits n m := by
  unfold cvEff HasCellOutOfRange
  rw [List.any_eq_true]
  constructor
  · rintro ⟨p, hp, hP⟩
    rw [clean_cellFlag hb p.1 p.2, Bool.false_xor] at hP
    rcases mem_cellsList.mp hp with ⟨h1, h2⟩
    exact ⟨p.1, h1, p.2, h2, (cellCmpEff_prep_clean hn hp hb).mp hP⟩
  · rintro ⟨i, h1, j, h2, hle⟩
    have hp : (i, j) ∈ cellsList n m := mem_cellsList.mpr ⟨h1, h2⟩
    refine ⟨(i, j), hp, ?_⟩
    rw [show cellFlagIdx n m (i, j).1 (i, j).2 = cellFlagIdx n m i j from rfl,
      clean_cellFlag hb i j, Bool.false_xor]
    exact (cellCmpEff_prep_clean hn hp hb).mpr hle

theorem clean_rowFlag {n m bits : Nat} (hb : bits < 2 ^ nmk n m) :
    getBit bits (rowFlag n m) = false :=
  clean_getBit hb (le_refl _)

theorem clean_colFlag {n m bits : Nat} (hb : bits < 2 ^ nmk n m) :
    getBit bits (colFlag n m) = false :=
  clean_getBit hb (Nat.le_succ _)

theorem clean_cellValidFlag {n m bits : Nat} (hb : bits < 2 ^ nmk n m) :
    getBit bits (cellValidFlag n m) = false :=
  clean_getBit hb (Nat.le_add_right _ 2)

theorem oracleMarkEff_clean {n m : Nat} {bits : Nat} (hn : 1 ≤ n)
    (hb : bits < 2 ^ nmk n m) :
    oracleMarkEff n m bits = decide (ValidCompletion bits n m) := by
  unfold oracleMarkEff
  rw [clean_rowFlag hb, clean_colFlag hb, clean_cellValidFlag hb]
  rw [Bool.false_xor, Bool.false_xor, Bool.false_xor, Bool.and_true]
  by_cases hv : ValidCompletion bits n m
  · rcases hv with ⟨h1, h2, h3⟩
    have e1 : rowUniqEff n m bits = false := by
      rcases Bool.eq_false_or_eq_true (rowUniqEff n m bits) with h | h
      · exact absurd ((rowUniqEff_clean hb).mp h) h2
      · exact h
    have e2 : colUniqEff n m bits = false := by
      rcases Bool.eq_false_or_eq_true (colUniqEff n m bits) with h | h
      · exact absurd ((colUniqEff_clean hb).mp h) h3
      · exact h
    have e3 : cvEff n m bits = false := by
      rcases Bool.eq_false_or_eq_true (cvEff n m bits) with h | h
      · exact absurd ((cvEff_clean hn hb).mp h) h1
      · exact h
    rw [e1, e2, e3, decide_eq_true ⟨h1, h2, h3⟩]
    rfl
  · rw [decide_eq_false hv]
    unfold ValidCompletion at hv
    by_cases h1 : HasCellOutOfRange bits n m
    · have e3 : cvEff n m bits = true := (cvEff_clean hn hb).mpr h1
      rw [e3]
      simp
    · by_cases h2 : HasRowDup bits n m
      · have e1 : rowUniqEff n m bits = true := (rowUniqEff_clean hb).mpr h2
        rw [e1]
        simp
      · have h3 : HasColDup bits n m := by
          by_contra h3
          exact hv ⟨h1, h2, h3⟩
        have e2 : colUniqEff n m bits = true := (colUniqEff_clean hb).mpr h3
        rw [e2]
        simp

/-- The three sub-oracles of the global oracle. -/
inductive SubOracle where
  | cellValidity
  | rowUniqueness
  | columnUniqueness
deriving DecidableEq

/-- The gate list of a sub-oracle. -/
def SubOracle.circuit : SubOracle → Nat → Nat → List Gate
  | SubOracle.cellValidity, n, m => cell_validity n m
  | SubOracle.rowUniqueness, n, m => row_uniqueness n m
  | SubOracle.columnUniqueness, n, m => column_uniqueness n m

/-- The designated flag bit a sub-oracle reports into. -/
def SubOracle.flagBit : SubOracle → Nat → Nat → Nat
  | SubOracle.cellValidity, n, m => cellValidFlag n m
  | SubOracle.rowUniqueness, n, m => rowFlag n m
  | SubOracle.columnUniqueness, n, m => colFlag n m

/-- The toggle condition of a sub-oracle, evaluated on the entry bits. -/
def SubOracle.eff : SubOracle → Nat → Nat → Nat → Bool
  | SubOracle.cellValidity, n, m => cvEff n m
  | SubOracle.rowUniqueness, n, m => rowUniqEff n m
  | SubOracle.columnUniqueness, n, m => colUniqEff n m

theorem subOracle_togglesOnly (so : SubOracle) (n m : Nat) :
    TogglesOnly (so.circuit n m) (so.flagBit n m) (so.eff n m) := by
  cases so with
  | cellValidity => exact cell_validity_spec n m
  | rowUniqueness => exact row_uniqueness_spec n m
  | columnUniqueness => exact column_uniqueness_spec n m

/-- C4: for every grid size and every input bit assignment, running any one
sub-oracle (its compute pass, flag update and uncompute pass) leaves every
register bit other than the sub-oracle designated flag bit with its
pre-compute value, and leaves the amplitude sign unchanged; in particular
every ancilla bit that was 0 at entry is 0 again at exit. -/
theorem sub_oracle_roundtrip_clean (so : SubOracle) (n m : Nat) (s : QState)
    (q : Nat) (hq : q ≠ so.flagBit n m) :
    getBit (run (so.circuit n m) s).bits q = getBit s.bits q
    ∧ (run (so.circuit n m) s).sign = s.sign := by
  have h := subOracle_togglesOnly so n m s
  constructor
  · rw [h]
    show getBit (flipWhen (so.eff n m s.bits) (so.flagBit n m) s.bits) q
      = getBit s.bits q
    rw [getBit_flipWhen, if_neg hq]
  · rw [h]

theorem sub_oracle_roundtrip_clean_witness :
    ((0 : Nat) ≠ SubOracle.flagBit SubOracle.rowUniqueness 2 2)
    ∧ (getBit (run (SubOracle.circuit SubOracle.rowUniqueness 2 2)
          (QState.mk 5 false)).bits 0 = getBit (QState.mk 5 false).bits 0
      ∧ (run (SubOracle.circuit SubOracle.rowUniqueness 2 2)
          (QState.mk 5 false)).sign = (QState.mk 5 false).sign) :=
  ⟨by decide, sub_oracle_roundtrip_clean SubOracle.rowUniqueness 2 2
    (QState.mk 5 false) 0 (by decide)⟩

/-- C2: starting from a state whose flag and ancilla bits are clear, running
the CellValidity sub-oracle sets the `cell_valid_flag` bit exactly when some
cell value is at least `max n m`, and the comparison threshold prepared in the
low ancillas by `prepare_constant` is the constant `2 ^ k - max n m`. -/
theorem cell_validity_flag_correct (n m : Nat) (s : QState) (hn : 1 ≤ n)
    (hb : s.bits < 2 ^ nmk n m) :
    (getBit (run (cell_validity n m) s).bits (cellValidFlag n m) = true
      ↔ HasCellOutOfRange s.bits n m)
    ∧ valOf (runBits (prepare_constant n m (2 ^ bitWidth n m - max n m))
          s.bits) (lowAncF n m) (bitWidth n m)
        = 2 ^ bitWidth n m - max n m := by
  constructor
  · have h := cell_validity_spec n m s
    rw [h]
    show getBit (flipWhen (cvEff n m s.bits) (cellValidFlag n m) s.bits)
      (cellValidFlag n m) = true ↔ _
    rw [getBit_flipWhen, if_pos rfl, clean_cellValidFlag hb, Bool.false_xor]
    exact cvEff_clean hn hb
  · exact prep_threshold_value hn hb

theorem cell_validity_flag_correct_witness :
    ((1 : Nat) ≤ 2 ∧ (QState.mk 3 false).bits < 2 ^ nmk 2 3)
    ∧ ((getBit (run (cell_validity 2 3) (QState.mk 3 false)).bits
          (cellValidFlag 2 3) = true ↔ HasCellOutOfRange 3 2 3)
      ∧ valOf (runBits (prepare_constant 2 3 (2 ^ bitWidth 2 3 - max 2 3))
            (3 : Nat)) (lowAncF 2 3) (bitWidth 2 3)
          = 2 ^ bitWidth 2 3 - max 2 3) :=
  ⟨⟨by decide, by decide⟩,
    cell_validity_flag_correct 2 3 (QState.mk 3 false) (by decide) (by decide)⟩

/-- C3: starting from a state whose flag and ancilla bits are clear, the
RowUniqueness sub-oracle sets `row_flag` exactly when some row holds two
cells with the same value, and the ColumnUniqueness sub-oracle sets
`col_flag` exactly when some column holds two cells with the same value. -/
theorem uniqueness_flags_correct (n m : Nat) (s : QState)
    (hb : s.bits < 2 ^ nmk n m) :
    (getBit (run (row_uniqueness n m) s).bits (rowFlag n m) = true
      ↔ HasRowDup s.bits n m)
    ∧ (getBit (run (column_uniqueness n m) s).bits (colFlag n m) = true
      ↔ HasColDup s.bits n m) := by
  constructor
  · have h := row_uniqueness_spec n m s
    rw [h]
    show getBit (flipWhen (rowUniqEff n m s.bits) (rowFlag n m) s.bits)
      (rowFlag n m) = true ↔ _
    rw [getBit_flipWhen, if_pos rfl, clean_rowFlag hb, Bool.false_xor]
    exact rowUniqEff_clean hb
  · have h := column_uniqueness_spec n m s
    rw [h]
    show getBit (flipWhen (colUniqEff n m s.bits) (colFlag n m) s.bits)
      (colFlag n m) = true ↔ _
    rw [getBit_flipWhen, if_pos rfl, clean_colFlag hb, Bool.false_xor]
    exact colUniqEff_clean hb

theorem uniqueness_flags_correct_witness :
    ((QState.mk 8 false).bits < 2 ^ nmk 2 2)
    ∧ ((getBit (run (row_uniqueness 2 2) (QState.mk 8 false)).bits
          (rowFlag 2 2) = true ↔ HasRowDup 8 2 2)
      ∧ (getBit (run (column_uniqueness 2 2) (QState.mk 8 false)).bits
          (colFlag 2 2) = true ↔ HasColDup 8 2 2)) :=
  ⟨by decide, uniqueness_flags_correct 2 2 (QState.mk 8 false) (by decide)⟩

/-- C9: for separated registers, whenever the XNOR scratch bits are clear at
entry, `comparator_equal` toggles the target flag exactly when the two k-bit
operand values are equal — for either initial value of the target flag — and
every bit other than the target, in particular every scratch bit, keeps its
entry value; the sign is unchanged. -/
theorem comparator_equal_correct (w : Nat) (a b sc : Nat → Nat) (t : Nat)
    (hsep : CeSep w a b sc t) (s : QState)
    (hsc : ∀ i, i < w → getBit s.bits (sc i) = false) :
    (getBit (run (comparator_equal w a b sc t) s).bits t
      = Bool.xor (getBit s.bits t)
          (decide (valOf s.bits a w = valOf s.bits b w)))
    ∧ (∀ q, q ≠ t →
        getBit (run (comparator_equal w a b sc t) s).bits q
          = getBit s.bits q)
    ∧ (run (comparator_equal w a b sc t) s).sign = s.sign := by
  have h := ce_spec hsep s
  have heff : ceEff w a b sc s.bits
      = decide (valOf s.bits a w = valOf s.bits b w) := by
    unfold ceEff
    by_cases heq : valOf s.bits a w = valOf s.bits b w
    · rw [decide_eq_true heq, List.all_eq_true]
      intro i hi
      have hiw := List.mem_range.mp hi
      show Bool.xor (getBit s.bits (sc i))
        (!(Bool.xor (getBit s.bits (a i)) (getBit s.bits (b i)))) = true
      rw [hsc i hiw, Bool.false_xor]
      exact (bool_xnor_true _ _).mpr (valOf_inj.mp heq i hiw)
    · rw [decide_eq_false heq]
      rcases Bool.eq_false_or_eq_true ((List.range w).all fun i =>
          Bool.xor (getBit s.bits (sc i))
            (!(Bool.xor (getBit s.bits (a i)) (getBit s.bits (b i)))))
        with hT | hF
      · exfalso
        refine heq (valOf_inj.mpr ?_)
        intro i hiw
        have hall := List.all_eq_true.mp hT i (List.mem_range.mpr hiw)
        have hall' : Bool.xor (getBit s.bits (sc i))
            (!(Bool.xor (getBit s.bits (a i)) (getBit s.bits (b i))))
            = true := hall
        rw [hsc i hiw, Bool.false_xor] at hall'
        exact (bool_xnor_true _ _).mp hall'
      · exact hF
  refine ⟨?_, ?_, ?_⟩
  · rw [h]
    show getBit (flipWhen (ceEff w a b sc s.bits) t s.bits) t = _
    rw [getBit_flipWhen, if_pos rfl, heff]
  · intro q hq
    rw [h]
    show getBit (flipWhen (ceEff w a b sc s.bits) t s.bits) q = getBit s.bits q
    rw [getBit_flipWhen, if_neg hq]
  · rw [h]

theorem comparator_equal_correct_witness :
    (∀ i, i < 1 → getBit (QState.mk 11 false).bits ((fun _ => 2) i) = false)
    ∧ ((getBit (run (comparator_equal 1 (fun _ => 0) (fun _ => 1)
            (fun _ => 2) 3) (QState.mk 11 false)).bits 3
        = Bool.xor (getBit (11 : Nat) 3)
            (decide (valOf (11 : Nat) (fun _ => 0) 1
              = valOf (11 : Nat) (fun _ => 1) 1)))
      ∧ (∀ q, q ≠ 3 →
          getBit (run (comparator_equal 1 (fun _ => 0) (fun _ => 1)
              (fun _ => 2) 3) (QState.mk 11 false)).bits q
            = getBit (11 : Nat) q)
      ∧ (run (comparator_equal 1 (fun _ => 0) (fun _ => 1)
          (fun _ => 2) 3) (QState.mk 11 false)).sign = false) :=
  ⟨by decide,
    comparator_equal_correct 1 (fun _ => 0) (fun _ => 1) (fun _ => 2) 3
      ⟨by decide, by decide, by decide, by decide, by decide, by decide⟩
      (QState.mk 11 false) (by decide)⟩

/-- C1: the global oracle restores every register bit (data, flag, scratch
and ancilla) for every input basis state; on states whose flag and ancilla
bits are clear it flips the amplitude sign exactly when the data bits encode
a valid Latin-square completion; and for the fully enumerated 2-by-2 grid the
sign-flipped assignments are exactly the valid completions. -/
theorem oracle_marks_exactly_valid (n m : Nat) (hn : 1 ≤ n) :
    (∀ s : QState, (run (oracle n m) s).bits = s.bits)
    ∧ (∀ s : QState, s.bits < 2 ^ nmk n m →
        (run (oracle n m) s).sign
          = Bool.xor s.sign (decide (ValidCompletion s.bits n m)))
    ∧ ((List.range (2 ^ nmk 2 2)).filter
          (fun x => (run (oracle 2 2) (QState.mk x false)).sign)
        = (List.range (2 ^ nmk 2 2)).filter
          (fun x => decide (ValidCompletion x 2 2))) := by
  have key : ∀ (u v : Nat), 1 ≤ u → ∀ s : QState, s.bits < 2 ^ nmk u v →
      (run (oracle u v) s).sign
        = Bool.xor s.sign (decide (ValidCompletion s.bits u v)) := by
    intro u v hu s hb
    rw [oracle_spec]
    show Bool.xor s.sign (oracleMarkEff u v s.bits) = _
    rw [oracleMarkEff_clean hu hb]
  refine ⟨?_, key n m hn, ?_⟩
  · intro s
    rw [oracle_spec]
  · refine List.filter_congr ?_
    intro x hx
    have h := key 2 2 (by decide) (QState.mk x false) (List.mem_range.mp hx)
    show (run (oracle 2 2) (QState.mk x false)).sign
      = decide (ValidCompletion x 2 2)
    rw [h]
    show Bool.xor false (decide (ValidCompletion x 2 2))
      = decide (ValidCompletion x 2 2)
    exact Bool.false_xor _

theorem oracle_marks_exactly_valid_witness :
    ((1 : Nat) ≤ 2 ∧ (QState.mk 6 false).bits < 2 ^ nmk 2 2)
    ∧ (run (oracle 2 2) (QState.mk 6 false)).sign
        = Bool.xor false (decide (ValidCompletion 6 2 2)) :=
  ⟨⟨by decide, by decide⟩,
    (oracle_marks_exactly_valid 2 2 (by decide)).2.1 (QState.mk 6 false)
      (by decide)⟩

/-- `optimal_grover_iterations` (`grover/params.py`).
Modelled from the spec: the optimal Grover iteration count
r = floor(pi/4 * sqrt(N / M)) for search-space size N and solution count M. -/
noncomputable def optimal_grover_iterations (N M : Nat) : Nat :=
  Nat.floor (Real.pi / 4 * Real.sqrt ((N : Real) / (M : Real)))

theorem sqrt_bounds (x lo hi : Real) (hlo : 0 ≤ lo) (hhi : 0 < hi)
    (h1 : lo ^ 2 < x) (h2 : x < hi ^ 2) :
    lo < Real.sqrt x ∧ Real.sqrt x < hi :=
  ⟨Real.lt_sqrt_of_sq_lt h1, (Real.sqrt_lt' hhi).mpr h2⟩

/-- C5: the iteration-count function is floor(pi/4 * sqrt(N/M)) for all
inputs, and in particular returns 2 at (N, M) = (64, 6) and 14 at
(N, M) = (4096, 12). -/
theorem optimal_iterations_formula :
    (∀ N M : Nat, optimal_grover_iterations N M
      = Nat.floor (Real.pi / 4 * Real.sqrt ((N : Real) / (M : Real))))
    ∧ optimal_grover_iterations 64 6 = 2
    ∧ optimal_grover_iterations 4096 12 = 14 := by
  have hpi_lo : (3.141592 : Real) < Real.pi := Real.pi_gt_d6
  have hpi_hi : Real.pi < 3.141593 := Real.pi_lt_d6
  refine ⟨fun N M => rfl, ?_, ?_⟩
  · unfold optimal_grover_iterations
    have hx : ((64 : Nat) : Real) / ((6 : Nat) : Real) = 32 / 3 := by
      norm_num
    rw [hx]
    have hb := sqrt_bounds (32 / 3 : Real) 3.26 3.27
      (by norm_num) (by norm_num) (by norm_num) (by norm_num)
    rw [Nat.floor_eq_iff (by positivity)]
    constructor
    · push_cast
      nlinarith [hb.1, Real.sqrt_nonneg (32 / 3 : Real)]
    · push_cast
      nlinarith [hb.2, Real.sqrt_nonneg (32 / 3 : Real)]
  · unfold optimal_grover_iterations
    have hx : ((4096 : Nat) : Real) / ((12 : Nat) : Real) = 1024 / 3 := by
      norm_num
    rw [hx]
    have hb := sqrt_bounds (1024 / 3 : Real) 18.47 18.48
      (by norm_num) (by norm_num) (by norm_num) (by norm_num)
    rw [Nat.floor_eq_iff (by positivity)]
    constructor
    · push_cast
      nlinarith [hb.1, Real.sqrt_nonneg (1024 / 3 : Real)]
    · push_cast
      nlinarith [hb.2, Real.sqrt_nonneg (1024 / 3 : Real)]

/-- The contribution of one row to the search-space size: each blank cell
multiplies by 2 ^ k, each fixed cell by 1. -/
def rowPoss (k : Nat) : List (Option Nat) → Nat
  | [] => 1
  | c :: r => (if c.isNone then 2 ^ k else 1) * rowPoss k r

/-- `count_blanks` (`grover/params.py`).
Modelled from the spec: the number of blank (None) cells of the grid. -/
def count_blanks : List (List (Option Nat)) → Nat
  | [] => 0
  | row :: rest => (row.filter (fun c => c.isNone)).length + count_blanks rest

/-- `total_possibilities` (`grover/params.py`).
Modelled from the spec: the search-space size, the product over the blank
cells of the 2 ^ k values each blank cell can take. -/
def total_possibilities (k : Nat) : List (List (Option Nat)) → Nat
  | [] => 1
  | row :: rest => rowPoss k row * total_possibilities k rest

theorem rowPoss_eq (k : Nat) (row : List (Option Nat)) :
    rowPoss k row = 2 ^ (k * (row.filter (fun c => c.isNone)).length) := by
  induction row with
  | nil => rfl
  | cons c r ih =>
    unfold rowPoss
    rw [ih]
    cases c with
    | none =>
      show 2 ^ k * 2 ^ (k * (r.filter (fun c => c.isNone)).length) = _
      rw [show ((none :: r).filter (fun c => c.isNone))
          = none :: r.filter (fun c => c.isNone) from rfl]
      rw [List.length_cons, Nat.mul_add, Nat.mul_one, Nat.pow_add,
        Nat.mul_comm]
    | some v =>
      show 1 * 2 ^ (k * (r.filter (fun c => c.isNone)).length) = _
      rw [Nat.one_mul]
      rfl

/-- C7: the search-space size computed in the INIT phase equals
2 ^ (k * count_blanks grid) for every grid, and equals 64 for the 1-by-3
all-blank grid with k = 2. -/
theorem total_possibilities_eq (k : Nat) :
    (∀ grid : List (List (Option Nat)),
      total_possibilities k grid = 2 ^ (k * count_blanks grid))
    ∧ total_possibilities 2 [[none, none, none]] = 64 := by
  constructor
  · intro grid
    induction grid with
    | nil => rfl
    | cons row rest ih =>
      unfold total_possibilities count_blanks
      rw [ih, rowPoss_eq, Nat.mul_add, Nat.pow_add]
  · rfl

/-- Row-major little-endian packing of a list of k-bit cell values into a
single bit vector, cell t occupying bits [t*k, (t+1)*k). -/
def encodeCells (k : Nat) : List Nat → Nat
  | [] => 0
  | v :: rest => v + 2 ^ k * encodeCells k rest

/-- `Indexer.initialize_grid` (`utils/indexer.py`) restricted to fully
assigned grids. Modelled from the spec: each cell value is written LSB-first
into its k data bits `data(i, j, b) = (i*m + j)*k + b`. -/
def initialize_grid (n m : Nat) (vals : List Nat) : Nat :=
  encodeCells (bitWidth n m) vals

/-- `extract_grid_counts` (`grover/simulation.py`) decoding of one basis
state. Modelled from the spec: the flat value tuple, entry t = i*m + j
rebuilt LSB-first from the k data bits of cell (i, j). -/
def extract_grid (bits n m : Nat) : List Nat :=
  (List.range (n * m)).map
    (fun t => valOf bits (fun b => t * bitWidth n m + b) (bitWidth n m))

theorem encode_testBit_low {v r k b : Nat} (hv : v < 2 ^ k) (hb : b < k) :
    (v + 2 ^ k * r).testBit b = v.testBit b := by
  rw [Nat.testBit_to_div_mod, Nat.testBit_to_div_mod]
  have hsplit : 2 ^ k = 2 ^ b * (2 * 2 ^ (k - b - 1)) := by
    rw [← Nat.pow_succ']
    rw [← Nat.pow_add]
    congr 1
    omega
  have h2 : v + 2 ^ k * r = v + 2 ^ b * (2 * 2 ^ (k - b - 1) * r) := by
    rw [hsplit]
    ring
  have hdiv : (v + 2 ^ k * r) / 2 ^ b
      = v / 2 ^ b + 2 * 2 ^ (k - b - 1) * r := by
    rw [h2, Nat.add_mul_div_left _ _ (Nat.two_pow_pos b)]
  rw [hdiv]
  have hmod : (v / 2 ^ b + 2 * 2 ^ (k - b - 1) * r) % 2 = v / 2 ^ b % 2 := by
    rw [Nat.mul_assoc]
    generalize v / 2 ^ b = A
    generalize 2 ^ (k - b - 1) * r = F
    omega
  rw [hmod]

theorem encode_testBit_high {v r k u : Nat} (hv : v < 2 ^ k) :
    (v + 2 ^ k * r).testBit (k + u) = r.testBit u := by
  rw [Nat.testBit_to_div_mod, Nat.testBit_to_div_mod]
  have hdiv : (v + 2 ^ k * r) / 2 ^ (k + u) = r / 2 ^ u := by
    rw [Nat.pow_add, ← Nat.div_div_eq_div_mul,
      Nat.add_mul_div_left _ _ (Nat.two_pow_pos k),
      Nat.div_eq_of_lt hv, Nat.zero_add]
  rw [hdiv]

theorem decode_encode (k : Nat) (vals : List Nat)
    (hv : ∀ v ∈ vals, v < 2 ^ k) :
    ∀ t : Nat, ∀ ht : t < vals.length,
      valOf (encodeCells k vals) (fun b => t * k + b) k = vals.get ⟨t, ht⟩ := by
  induction vals with
  | nil =>
    intro t ht
    exact absurd ht (Nat.not_lt_zero t)
  | cons v rest ih =>
    intro t ht
    cases t with
    | zero =>
      show valOf (v + 2 ^ k * encodeCells k rest) (fun b => 0 * k + b) k = v
      refine valOf_eq_of_testBit (hv v (List.mem_cons_self v rest)) ?_
      intro b hb
      show getBit (v + 2 ^ k * encodeCells k rest) (0 * k + b) = v.testBit b
      unfold getBit
      rw [Nat.zero_mul, Nat.zero_add]
      exact encode_testBit_low (hv v (List.mem_cons_self v rest)) hb
    | succ t' =>
      have ht' : t' < rest.length := Nat.lt_of_succ_lt_succ ht
      have hres := ih (fun u hu => hv u (List.mem_cons_of_mem v hu)) t' ht'
      show valOf (v + 2 ^ k * encodeCells k rest)
        (fun b => (t' + 1) * k + b) k = rest.get ⟨t', ht'⟩
      rw [← hres]
      refine valOf_inj.mpr ?_
      intro b hb
      show getBit (v + 2 ^ k * encodeCells k rest) ((t' + 1) * k + b)
        = getBit (encodeCells k rest) (t' * k + b)
      unfold getBit
      rw [show (t' + 1) * k + b = k + (t' * k + b) by ring]
      exact encode_testBit_high (hv v (List.mem_cons_self v rest))

/-- C8: encoding a fully assigned grid into the data bits with
`initialize_grid` and then decoding those bits with `extract_grid`
reproduces the original flat value list exactly, and every individual cell
value is recovered by the per-cell LSB-first reconstruction `gridVal`. -/
theorem initialize_then_decode (n m : Nat) (vals : List Nat)
    (hlen : vals.length = n * m)
    (hv : ∀ v ∈ vals, v < 2 ^ bitWidth n m) :
    extract_grid (initialize_grid n m vals) n m = vals
    ∧ ∀ (i j : Nat) (hi : i < n) (hj : j < m),
      gridVal (initialize_grid n m vals) n m i j
        = vals.get ⟨i * m + j, by rw [hlen]; exact cellPos_lt hi hj⟩ := by
  have hcell : ∀ t : Nat, ∀ ht : t < vals.length,
      valOf (initialize_grid n m vals) (fun b => t * bitWidth n m + b)
        (bitWidth n m) = vals.get ⟨t, ht⟩ :=
    decode_encode (bitWidth n m) vals hv
  constructor
  · refine List.ext_get ?_ ?_
    · rw [show (extract_grid (initialize_grid n m vals) n m).length = n * m
        from by unfold extract_grid; rw [List.length_map, List.length_range]]
      exact hlen.symm
    · intro t h1 h2
      have htr : t < n * m := by
        unfold extract_grid at h1
        rw [List.length_map, List.length_range] at h1
        exact h1
      show (extract_grid (initialize_grid n m vals) n m).get ⟨t, h1⟩
        = vals.get ⟨t, h2⟩
      have hmap : (extract_grid (initialize_grid n m vals) n m).get ⟨t, h1⟩
          = valOf (initialize_grid n m vals)
              (fun b => t * bitWidth n m + b) (bitWidth n m) := by
        unfold extract_grid
        rw [List.get_map, List.get_range]
      rw [hmap]
      exact hcell t h2
  · intro i j hi hj
    have ht : i * m + j < vals.length := by
      rw [hlen]
      exact cellPos_lt hi hj
    have := hcell (i * m + j) ht
    rw [← this]
    show valOf (initialize_grid n m vals) (cellBitsF n m i j) (bitWidth n m)
      = valOf (initialize_grid n m vals)
          (fun b => (i * m + j) * bitWidth n m + b) (bitWidth n m)
    exact valOf_inj.mpr (fun b hb => rfl)

theorem initialize_then_decode_witness :
    (([0, 1, 1, 0] : List Nat).length = 2 * 2
      ∧ ∀ v ∈ ([0, 1, 1, 0] : List Nat), v < 2 ^ bitWidth 2 2)
    ∧ extract_grid (initialize_grid 2 2 [0, 1, 1, 0]) 2 2 = [0, 1, 1, 0] :=
  ⟨⟨by decide, by decide⟩,
    (initialize_then_decode 2 2 [0, 1, 1, 0] (by decide) (by decide)).1⟩

/-- Whether a list of naturals contains some value twice. -/
def hasDupB : List Nat → Bool
  | [] => false
  | v :: rest => decide (v ∈ rest) || hasDupB rest

theorem hasDupB_iff {l : List Nat} : hasDupB l = true ↔ ¬ l.Nodup := by
  induction l with
  | nil =>
    simp [hasDupB]
  | cons v rest ih =>
    show (decide (v ∈ rest) || hasDupB rest) = true ↔ _
    rw [Bool.or_eq_true, decide_eq_true_iff, ih, List.nodup_cons]
    constructor
    · rintro (h | h) ⟨h1, h2⟩
      · exact h1 h
      · exact h h2
    · intro h
      by_cases hmem : v ∈ rest
      · exact Or.inl hmem
      · exact Or.inr (fun hnd => h ⟨hmem, hnd⟩)

/-- Rectangularity check: every row has the length of the first row. -/
def rectangularB (grid : List (List (Option Nat))) : Bool :=
  grid.all (fun row => row.length == (grid.headD []).length)

/-- Range check: every fixed value is below `max n m`. -/
def inRangeB (grid : List (List (Option Nat))) : Bool :=
  grid.all (fun row => row.all (fun c => c.all
    (fun v => decide (v < max grid.length (grid.headD []).length))))

/-- No row holds the same fixed symbol twice. -/
def rowDupFree (grid : List (List (Option Nat))) : Bool :=
  grid.all (fun row => !(hasDupB (row.filterMap id)))

/-- No column holds the same fixed symbol twice. -/
def colDupFree (grid : List (List (Option Nat))) : Bool :=
  grid.transpose.all (fun col => !(hasDupB (col.filterMap id)))

/-- `verify_grid` (`utils/grid.py`).
Modelled from the spec: the grid is rectangular, every fixed value is in
range, and no duplicate fixed symbol appears in any row or column. -/
def verify_grid (grid : List (List (Option Nat))) : Bool :=
  rectangularB grid && inRangeB grid && rowDupFree grid && colDupFree grid

/-- Modelled from the spec: the validation the spec states for grids before
circuit construction — rectangularity and range of fixed values only. -/
def spec_stated_validation (grid : List (List (Option Nat))) : Bool :=
  rectangularB grid && inRangeB grid

/-- C10: `verify_grid` is strictly stronger than the validation stated by the
spec: every grid it accepts passes the stated rectangularity and range
checks; any grid with a repeated fixed symbol in some row is rejected, and
any grid with a repeated fixed symbol in some column is rejected, even when
the stated checks pass — as the 1-by-2 grid with the symbol 0 twice and the
2-by-1 grid with the symbol 0 twice show. -/
theorem verify_grid_stricter :
    (∀ grid, verify_grid grid = true → spec_stated_validation grid = true)
    ∧ (∀ grid row, row ∈ grid → ¬ (row.filterMap id).Nodup →
        verify_grid grid = false)
    ∧ (∀ grid col, col ∈ grid.transpose → ¬ (col.filterMap id).Nodup →
        verify_grid grid = false)
    ∧ spec_stated_validation [[some 0, some 0]] = true
    ∧ verify_grid [[some 0, some 0]] = false
    ∧ spec_stated_validation [[some 0], [some 0]] = true
    ∧ verify_grid [[some 0], [some 0]] = false := by
  refine ⟨?_, ?_, ?_, ?_, ?_, ?_, ?_⟩
  · intro grid h
    unfold verify_grid at h
    rw [Bool.and_eq_true, Bool.and_eq_true, Bool.and_eq_true] at h
    unfold spec_stated_validation
    rw [h.1.1.1, h.1.1.2]
    rfl
  · intro grid row hmem hdup
    rcases Bool.eq_false_or_eq_true (verify_grid grid) with hT | hF
    · exfalso
      unfold verify_grid at hT
      rw [Bool.and_eq_true, Bool.and_eq_true, Bool.and_eq_true] at hT
      have hrow := List.all_eq_true.mp hT.1.2 row hmem
      have hrow' : (!(hasDupB (row.filterMap id))) = true := hrow
      rw [Bool.not_eq_true'] at hrow'
      rw [hasDupB_iff.mpr hdup] at hrow'
      exact Bool.noConfusion hrow' 
    · exact hF
  · intro grid col hmem hdup
    rcases Bool.eq_false_or_eq_true (verify_grid grid) with hT | hF
    · exfalso
      unfold verify_grid at hT
      rw [Bool.and_eq_true, Bool.and_eq_true, Bool.and_eq_true] at hT
      have hcol := List.all_eq_true.mp hT.2 col hmem
      have hcol' : (!(hasDupB (col.filterMap id))) = true := hcol
      rw [Bool.not_eq_true'] at hcol'
      rw [hasDupB_iff.mpr hdup] at hcol'
      exact Bool.noConfusion hcol' 
    · exact hF
  · rfl
  · rfl
  · rfl
  · rfl

theorem verify_grid_stricter_witness :
    (([some 0, some 0] : List (Option Nat)) ∈ [[some 0, some 0]]
      ∧ ¬ (([some 0, some 0] : List (Option Nat)).filterMap id).Nodup)
    ∧ verify_grid [[some 0, some 0]] = false
    ∧ (([some 0, some 0] : List (Option Nat))
        ∈ ([[some 0], [some 0]] : List (List (Option Nat))).transpose
      ∧ ¬ (([some 0, some 0] : List (Option Nat)).filterMap id).Nodup)
    ∧ verify_grid [[some 0], [some 0]] = false :=
  ⟨⟨by decide, by decide⟩,
    verify_grid_stricter.2.1 [[some 0, some 0]] [some 0, some 0]
      (by decide) (by decide),
    ⟨by decide, by decide⟩,
    verify_grid_stricter.2.2.1 [[some 0], [some 0]] [some 0, some 0]
      (by decide) (by decide)⟩

end LatinGrover
